import Mathlib

/-!
# Knight's tour solver (`kts.c`)

A shallow embedding of `kts.c` and theorems about it.

* C `int` values are `Int`.  The only arithmetic in the program is `pos + offset` with
  `|offset| ≤ 2` and the counter `++a` (at most 8), so no sum leaves the range of a
  32-bit `int` when the position is on the board.
* The global `int board[8][8]` is a function from a pair of indices to the label of the cell.
  The program reads a cell only after the range test of `MOVEOK` and the embedding writes a
  cell only after a range test (`iter`), so values outside `0..7 x 0..7` never matter.
* The globals `board`, `pos` and the local `p` of `main` form the `State`; `nextmove` and `acc`
  only read `board` and `pos`, so they are functions of these, and `nextmove` returns the new
  contents of the pair `p` it was handed.
-/

namespace Kts

/-! ## Definitions: the program -/

/-- The global `int board[8][8]`: label of the cell `(x, y)`. -/
abbrev Board := Int → Int → Int

/-- The global table `int moves[8][2]`, in the order of the source. -/
def moves : List (Int × Int) :=
  [(-2, -1), (2, -1), (-1, -2), (1, -2), (-2, 1), (2, 1), (-1, 2), (1, 2)]

/-- The source's macro
`MOVEOK(X, Y) ((X) >= 0 && (X) < 8 && (Y) >= 0 && (Y) < 8 && !board[(X)][(Y)])`. -/
def MOVEOK (board : Board) (x y : Int) : Bool :=
  decide (x ≥ 0) && decide (x < 8) && decide (y ≥ 0) && decide (y < 8) && (board x y == 0)

/-- The function `acc`: `for(a = i = 0; i < 8; ++i) if(MOVEOK(x + moves[i][0], y + moves[i][1]))
++a; return a;`. -/
def acc (board : Board) (x y : Int) : Int :=
  moves.foldl (fun a m => if MOVEOK board (x + m.1) (y + m.2) then a + 1 else a) 0

/-- One pass through the body of the loop of `nextmove` for the offset `m`; the loop state is
`(ma, p)`.  The candidate is adopted when `MOVEOK(x, y) && (a = acc(x, y)) < ma`. -/
def nextmoveStep (board : Board) (pos : Int × Int) (st : Int × (Int × Int)) (m : Int × Int) :
    Int × (Int × Int) :=
  let x := pos.1 + m.1
  let y := pos.2 + m.2
  if MOVEOK board x y then
    let a := acc board x y
    if a < st.1 then (a, (x, y)) else st
  else st

/-- The loop of `nextmove`, started with `ma = 9` and the pair `p` as it was passed in; the
result is the final `(ma, p)`. -/
def nextmoveLoop (board : Board) (pos p : Int × Int) : Int × (Int × Int) :=
  moves.foldl (nextmoveStep board pos) (9, p)

/-- The function `nextmove(int *p)`: the contents of `p` when it returns. -/
def nextmove (board : Board) (pos p : Int × Int) : Int × Int :=
  (nextmoveLoop board pos p).2

/-- The globals `board` and `pos` together with the local `p` of `main`. -/
structure State where
  /-- the global `board` -/
  board : Board
  /-- the global `pos` -/
  pos : Int × Int
  /-- the local `p` of `main` -/
  p : Int × Int

/-- The assignment `board[x][y] = c`. -/
def setCell (board : Board) (x y c : Int) : Board :=
  fun i j => if i = x ∧ j = y then c else board i j

/-- Both indices are inside the array `board[8][8]`. -/
def inBoard (x y : Int) : Bool :=
  decide (0 ≤ x) && decide (x < 8) && decide (0 ≤ y) && decide (y < 8)

/-- The state of `main` when it enters the loop: `x = pos[0] = ...; y = pos[1] = ...;
board[x][y] = -1;` on the zero-initialised global board.  The local `p` is not initialised; its
contents are the parameter `p0`. -/
def initState (x y : Int) (p0 : Int × Int) : State :=
  { board := setCell (fun _ _ => 0) x y (-1), pos := (x, y), p := p0 }

/-- One iteration of the loop of `main` for the label `c`:
`nextmove(p); x = pos[0] = p[0]; y = pos[1] = p[1]; board[x][y] = c;`.
A store outside the array is undefined behaviour: `none`. -/
def iter (c : Int) (s : State) : Option State :=
  let p := nextmove s.board s.pos s.p
  if inBoard p.1 p.2 then
    some { board := setCell s.board p.1 p.2 c, pos := p, p := p }
  else none

/-- The next `n` iterations of the loop of `main`, the first of them for the label `c`. -/
def runFrom : Int → Nat → State → Option State
  | _, 0, s => some s
  | c, n + 1, s => (iter c s).bind (runFrom (c + 1) n)

/-- The loop `for(c = 2; c <= 64; ++c)` of `main`: 63 iterations, the first for the label 2. -/
def mainLoop (s : State) : Option State := runFrom 2 63 s

/-! ## Definitions: vocabulary of the specification -/

/-- The cell `(x, y)` is a legal target: on the board and not visited (label 0). -/
def Legal (board : Board) (x y : Int) : Prop :=
  0 ≤ x ∧ x < 8 ∧ 0 ≤ y ∧ y < 8 ∧ board x y = 0

instance (board : Board) (x y : Int) : Decidable (Legal board x y) := by
  unfold Legal; infer_instance

/-- At least one of the 8 knight moves from `pos` is legal. -/
def HasMove (board : Board) (pos : Int × Int) : Prop :=
  ∃ m ∈ moves, Legal board (pos.1 + m.1) (pos.2 + m.2)

/-- The 64 cells of the board, row by row. -/
def cells : List (Int × Int) :=
  (List.range 8).flatMap fun i : Nat => (List.range 8).map fun j : Nat => ((i : Int), (j : Int))

/-- Number of cells of the board with a nonzero label. -/
def countNonzero (board : Board) : Nat :=
  (cells.filter fun q => board q.1 q.2 != 0).length

/-- The cell `b` is one knight move from the cell `a`. -/
def KnightMove (a b : Int × Int) : Prop :=
  ∃ m ∈ moves, b = (a.1 + m.1, a.2 + m.2)

/-- Some pass of the loop of `nextmove` takes the branch that assigns `p`: for an offset `m`
of the table, reached with the loop state left by the offsets before it, the test
`MOVEOK(x, y) && (a = acc(x, y)) < ma` succeeds. -/
def Adopts (board : Board) (pos p : Int × Int) : Prop :=
  ∃ pre m post, moves = pre ++ m :: post ∧
    MOVEOK board (pos.1 + m.1) (pos.2 + m.2) = true ∧
    acc board (pos.1 + m.1) (pos.2 + m.2) < (pre.foldl (nextmoveStep board pos) (9, p)).1

/-- A dead end in the corner: the knight stands on `(0, 0)` (label 7) and both cells it could
reach, `(2, 1)` and `(1, 2)`, are visited. -/
def cornerBoard : Board :=
  fun i j => if i = 0 ∧ j = 0 then 7 else if i = 2 ∧ j = 1 then 3 else if i = 1 ∧ j = 2 then 5 else 0

/-- The state of `main` at the dead end `cornerBoard`, with `p` equal to the position as it is
after any earlier iteration. -/
def cornerState : State := { board := cornerBoard, pos := (0, 0), p := (0, 0) }

/-- The next `n` iterations, the first for the label `c`, each find a legal move. -/
def MovesAhead : Nat → Int → State → Prop
  | 0, _, _ => True
  | n + 1, c, s => HasMove s.board s.pos ∧ ∀ s1, iter c s = some s1 → MovesAhead n (c + 1) s1

/-! ## Definitions: a bit-board evaluator

The runs from the 64 start squares are evaluated on a compact representation which is proved
below to simulate the program: the board is padded by two cells on every side (12 x 12), the
cell `(x, y)` has the index `12 * (x + 2) + (y + 2)`, and bit `i` of the mask `m` is set when
the cell of index `i` is off the board or carries a nonzero label. -/

/-- Index of the cell `(x, y)` on the padded board. -/
def idx (x y : Int) : Nat := (12 * (x + 2) + (y + 2)).toNat

/-- Bit `j` of the mask `m`, as 0 or 1. -/
def bitAt (m j : Nat) : Nat := Nat.land (Nat.shiftRight m j) 1

/-- The mask of the cells off the board: the two outer rings of the padded board. -/
def border : Nat := 0xffffffc03c03c03c03c03c03c03c03ffffff

/-- Counterpart of `acc` for the cell of index `i`: 8 minus the number of set bits among the
eight knight targets, taken in the order of `moves`. -/
def accP (m i : Nat) : Nat :=
  Nat.sub 8 (Nat.add (Nat.add (Nat.add (bitAt m (Nat.sub i 25)) (bitAt m (Nat.add i 23)))
    (Nat.add (bitAt m (Nat.sub i 14)) (bitAt m (Nat.add i 10))))
    (Nat.add (Nat.add (bitAt m (Nat.sub i 23)) (bitAt m (Nat.add i 25)))
    (Nat.add (bitAt m (Nat.sub i 10)) (bitAt m (Nat.add i 14)))))

/-- Counterpart of `nextmoveStep` for the candidate of index `j`. -/
def stepP (m j : Nat) (st : Nat × Nat) : Nat × Nat :=
  match Nat.beq (bitAt m j) 0 with
  | false => st
  | true =>
    match Nat.blt (accP m j) st.1 with
    | true => (accP m j, j)
    | false => st

/-- Counterpart of `nextmoveLoop` called with `p` equal to the position of index `i`. -/
def nextP (m i : Nat) : Nat × Nat :=
  stepP m (Nat.add i 14) (stepP m (Nat.sub i 10) (stepP m (Nat.add i 25) (stepP m (Nat.sub i 23)
    (stepP m (Nat.add i 10) (stepP m (Nat.sub i 14) (stepP m (Nat.add i 23)
      (stepP m (Nat.sub i 25) (9, i))))))))

/-- The next `n` iterations from the mask `m` and the position of index `i` all find a legal
move. -/
def checkP : Nat → Nat → Nat → Bool
  | 0, _, _ => true
  | n + 1, m, i =>
    match nextP m i with
    | (ma, p) => Nat.blt ma 9 && checkP n (Nat.lor m (Nat.shiftLeft 1 p)) p

/-- Mask and index of the position after `n` iterations. -/
def stateP : Nat → Nat → Nat → Nat × Nat
  | 0, m, i => (m, i)
  | n + 1, m, i =>
    match nextP m i with
    | (_, p) => stateP n (Nat.lor m (Nat.shiftLeft 1 p)) p

/-- The mask of the initial board for the start square `(x, y)`. -/
def maskOf (x y : Int) : Nat := Nat.lor border (Nat.shiftLeft 1 (idx x y))

/-- The mask `m` describes the board: a bit is clear exactly on the legal cells. -/
def MaskOK (board : Board) (m : Nat) : Prop :=
  ∀ x y : Int, -2 ≤ x → x < 10 → -2 ≤ y → y < 10 → (bitAt m (idx x y) = 0 ↔ Legal board x y)

/-- The mask `m` and the index `i` describe the state `s`, whose `p` is its position. -/
def Sim (s : State) (m i : Nat) : Prop :=
  MaskOK s.board m ∧ inBoard s.pos.1 s.pos.2 = true ∧ s.p = s.pos ∧ i = idx s.pos.1 s.pos.2

/-- The loop states of `nextmove` and of its counterpart agree. -/
def StRel (st : Int × (Int × Int)) (stN : Nat × Nat) : Prop :=
  st.1 = (stN.1 : Int) ∧ inBoard st.2.1 st.2.2 = true ∧ stN.2 = idx st.2.1 st.2.2

/-- Number of iterations from the start square `(x, y)` that find a legal move: all 63, except
from `(2, 7)` (dead end after 61) and from `(4, 6)` (dead end after 59). -/
def horizon (x y : Int) : Nat :=
  if x = 2 ∧ y = 7 then 61 else if x = 4 ∧ y = 6 then 59 else 63

/-- The board of a run from the start square `(x, y)` that has placed the labels `2..k+1`
without meeting a dead end, the knight standing on the cell labelled last. -/
def TourInv (x y : Int) (k : Nat) (s : State) : Prop :=
  inBoard s.pos.1 s.pos.2 = true ∧
  s.board s.pos.1 s.pos.2 = (if k = 0 then -1 else (k : Int) + 1) ∧
  (∀ i j : Int, inBoard i j = true → (s.board i j = -1 ↔ (i = x ∧ j = y))) ∧
  (∀ i j : Int, inBoard i j = true →
    s.board i j = 0 ∨ s.board i j = -1 ∨ (2 ≤ s.board i j ∧ s.board i j ≤ (k : Int) + 1)) ∧
  (∀ i j a b : Int, inBoard i j = true → inBoard a b = true → s.board i j ≠ 0 →
    s.board i j = s.board a b → i = a ∧ j = b) ∧
  (∀ c : Int, 2 ≤ c → c ≤ (k : Int) + 1 → ∃ i j : Int, inBoard i j = true ∧ s.board i j = c) ∧
  countNonzero s.board = k + 1 ∧
  (∀ i j a b : Int, inBoard i j = true → inBoard a b = true →
    (s.board i j = -1 ∧ s.board a b = 2) ∨ (2 ≤ s.board i j ∧ s.board a b = s.board i j + 1) →
    KnightMove (i, j) (a, b))

/-- The board is a complete knight's tour from the start square `(x, y)`: no cell is 0, the
start cell is the one cell labelled -1, each label `2..64` is on exactly one cell, the cell
labelled 2 is one knight move from the start cell, and the cell labelled `c + 1` is one knight
move from the cell labelled `c` for `c` in `2..63`. -/
def CompleteTour (x y : Int) (board : Board) : Prop :=
  (∀ i j : Int, inBoard i j = true → board i j ≠ 0) ∧
  (∀ i j : Int, inBoard i j = true → (board i j = -1 ↔ (i = x ∧ j = y))) ∧
  (∀ c : Int, 2 ≤ c → c ≤ 64 → ∃ i j : Int, inBoard i j = true ∧ board i j = c ∧
    ∀ a b : Int, inBoard a b = true → board a b = c → a = i ∧ b = j) ∧
  (∀ a b : Int, inBoard a b = true → board a b = 2 → KnightMove (x, y) (a, b)) ∧
  (∀ c : Int, 2 ≤ c → c ≤ 63 → ∀ i j a b : Int, inBoard i j = true → inBoard a b = true →
    board i j = c → board a b = c + 1 → KnightMove (i, j) (a, b))

/-! ## Definitions: `show` and the start square -/

/-- The four `printf` calls of the cell loop of `show`: `printf("%2cS♞", ' ')`,
`printf("%2cE♞", ' ')`, `printf("%4.2d", board[x][y])` and `printf("%4c", '.')`. -/
inductive CellOut where
  /-- the start marker -/
  | startMark : CellOut
  /-- the end marker -/
  | endMark : CellOut
  /-- the label, as a number -/
  | number (v : Int) : CellOut
  /-- the placeholder of an unvisited cell -/
  | dot : CellOut
  deriving DecidableEq

/-- The body of the cell loop of `show` for the cell `(x, y)`:
`if(board[x][y] == -1) ... else if(board[x][y]) if(x == y && x == 7) ... else ... else ...`. -/
def showCell (board : Board) (x y : Int) : CellOut :=
  if board x y = -1 then CellOut.startMark
  else if board x y ≠ 0 then
    if x = y ∧ x = 7 then CellOut.endMark else CellOut.number (board x y)
  else CellOut.dot

/-- Right-justification in a field of width `w`. -/
def padLeft (w : Nat) (t : String) : String :=
  String.mk (List.replicate (w - t.length) ' ') ++ t

/-- The conversion `%.2d`: at least two digits. -/
def fmtD2 (v : Int) : String :=
  let d := toString v.natAbs
  let d2 := if v.natAbs < 10 then "0" ++ d else d
  if v < 0 then "-" ++ d2 else d2

/-- The text written by each of the four `printf` calls. -/
def cellText : CellOut → String
  | CellOut.startMark => padLeft 2 " " ++ "S♞"
  | CellOut.endMark => padLeft 2 " " ++ "E♞"
  | CellOut.number v => padLeft 4 (fmtD2 v)
  | CellOut.dot => padLeft 4 "."

/-- The function `show`, as the grid of the 64 cell outputs, row by row. -/
def showGrid (board : Board) : List (List CellOut) :=
  (List.range 8).map fun x : Nat => (List.range 8).map fun y : Nat => showCell board x y

/-- The text written by `show`: the line of column letters, then for each row a blank line,
the row number and the 8 cells. -/
def showText (board : Board) : String :=
  padLeft 2 " "
    ++ String.join ((List.range 8).map fun x : Nat =>
        padLeft 4 (String.singleton (Char.ofNat (97 + x))))
    ++ "\n"
    ++ String.join ((List.range 8).map fun x : Nat =>
        "\n" ++ padLeft 2 (toString x)
          ++ String.join ((List.range 8).map fun y : Nat => cellText (showCell board x y))
          ++ "\n")

/-- The source's macro `RAND(N) (rand() / (RAND_MAX / N + 1))`, with the value `r` returned by
`rand()` and the constant `RAND_MAX` of `stdlib.h` as parameters; `/` is the truncating
division of C. -/
def RAND (randMax r n : Int) : Int := Int.tdiv r (Int.tdiv randMax n + 1)

/-- The value fits a 32-bit `int`. -/
def fitsInt32 (v : Int) : Prop := -2147483648 ≤ v ∧ v ≤ 2147483647

/-! ## Theorems -/

theorem MOVEOK_iff (board : Board) (x y : Int) : MOVEOK board x y = true ↔ Legal board x y := by
  simp [MOVEOK, Legal, and_assoc]

theorem foldl_count (P : Int × Int → Bool) (l : List (Int × Int)) (a0 : Int) :
    l.foldl (fun a m => if P m then a + 1 else a) a0 = a0 + ((l.filter P).length : Int) := by
  induction l generalizing a0 with
  | nil => simp
  | cons m l ih =>
    simp only [List.foldl_cons, ih, List.filter_cons]
    by_cases h : P m = true
    · simp [h]; ring
    · simp [h]

theorem acc_eq_filter (board : Board) (x y : Int) :
    acc board x y
      = (((moves.filter fun m => MOVEOK board (x + m.1) (y + m.2)).length : Nat) : Int) := by
  unfold acc
  rw [foldl_count (fun m => MOVEOK board (x + m.1) (y + m.2))]
  simp

theorem acc_nonneg (board : Board) (x y : Int) : 0 ≤ acc board x y := by
  rw [acc_eq_filter]; exact Int.ofNat_nonneg _

theorem acc_le_eight (board : Board) (x y : Int) : acc board x y ≤ 8 := by
  rw [acc_eq_filter]
  have h := List.length_filter_le (fun m => MOVEOK board (x + m.1) (y + m.2)) moves
  have h8 : moves.length = 8 := rfl
  omega

theorem range_map_getD {α : Type} (l : List α) (d : α) :
    (List.range l.length).map (fun i => l.getD i d) = l := by
  apply List.ext_getElem
  · simp
  · intro i h1 h2
    simp [List.getD, List.getElem?_eq_getElem h2]

theorem length_filter_index {α : Type} (l : List α) (d : α) (P : α → Bool) :
    ((List.range l.length).filter fun i => P (l.getD i d)).length = (l.filter P).length := by
  have h := congrArg (fun t => (t.filter P).length) (range_map_getD l d)
  simp only [List.filter_map, List.length_map] at h
  rw [← h]
  rfl

/-- C9: for every board and every pair of integers `(x, y)`, `acc` returns the number of
indices `i` in `0..7` whose target `(x + moves[i][0], y + moves[i][1])` is inside the board and
has label 0; the value lies in `0..8`.  (`acc` is a function of the board and its arguments: it
has no effect on the board or the position.) -/
theorem acc_counts_legal_targets (board : Board) (x y : Int) :
    acc board x y
        = ((((List.range 8).filter fun i =>
              decide (Legal board (x + (moves.getD i (0, 0)).1) (y + (moves.getD i (0, 0)).2))).length
            : Nat) : Int)
      ∧ 0 ≤ acc board x y ∧ acc board x y ≤ 8 := by
  refine ⟨?_, acc_nonneg board x y, acc_le_eight board x y⟩
  rw [acc_eq_filter]
  have hm : ∀ a b : Int, MOVEOK board a b = decide (Legal board a b) := by
    intro a b
    rw [Bool.eq_iff_iff, MOVEOK_iff]; simp
  simp only [hm]
  have h := length_filter_index moves (0, 0)
    (fun m => decide (Legal board (x + m.1) (y + m.2)))
  have h8 : moves.length = 8 := rfl
  rw [h8] at h
  rw [h]

/-! ### The selection loop of `nextmove` -/

theorem nextmoveStep_eq (board : Board) (pos : Int × Int) (st : Int × (Int × Int))
    (m : Int × Int) :
    nextmoveStep board pos st m
      = if Legal board (pos.1 + m.1) (pos.2 + m.2)
          ∧ acc board (pos.1 + m.1) (pos.2 + m.2) < st.1
        then (acc board (pos.1 + m.1) (pos.2 + m.2), (pos.1 + m.1, pos.2 + m.2)) else st := by
  unfold nextmoveStep
  by_cases h : Legal board (pos.1 + m.1) (pos.2 + m.2)
  · have h1 : MOVEOK board (pos.1 + m.1) (pos.2 + m.2) = true := (MOVEOK_iff _ _ _).2 h
    simp [h, h1]
  · have h1 : ¬ MOVEOK board (pos.1 + m.1) (pos.2 + m.2) = true :=
      fun hh => h ((MOVEOK_iff _ _ _).1 hh)
    simp [h, h1]

/-- What the loop of `nextmove` computes over any list of offsets `l` from any loop state `st`:
either nothing is adopted, or the state is the first offset of minimal `acc` below `st.1`. -/
theorem foldl_nextmoveStep (board : Board) (pos : Int × Int) (l : List (Int × Int))
    (st : Int × (Int × Int)) :
    (l.foldl (nextmoveStep board pos) st = st ∧
        ∀ m ∈ l, Legal board (pos.1 + m.1) (pos.2 + m.2) →
          st.1 ≤ acc board (pos.1 + m.1) (pos.2 + m.2))
      ∨ ∃ pre m post, l = pre ++ m :: post ∧ Legal board (pos.1 + m.1) (pos.2 + m.2) ∧
          acc board (pos.1 + m.1) (pos.2 + m.2) < st.1 ∧
          l.foldl (nextmoveStep board pos) st
            = (acc board (pos.1 + m.1) (pos.2 + m.2), (pos.1 + m.1, pos.2 + m.2)) ∧
          (∀ m1 ∈ pre, Legal board (pos.1 + m1.1) (pos.2 + m1.2) →
            acc board (pos.1 + m.1) (pos.2 + m.2) < acc board (pos.1 + m1.1) (pos.2 + m1.2)) ∧
          (∀ m1 ∈ post, Legal board (pos.1 + m1.1) (pos.2 + m1.2) →
            acc board (pos.1 + m.1) (pos.2 + m.2) ≤ acc board (pos.1 + m1.1) (pos.2 + m1.2)) := by
  induction l using List.reverseRecOn with
  | nil => left; simp
  | append_singleton l a ih =>
    rw [List.foldl_append, List.foldl_cons, List.foldl_nil, nextmoveStep_eq]
    rcases ih with ⟨hst, hall⟩ | ⟨pre, m, post, hl, hleg, hlt, hres, hpre, hpost⟩
    · rw [hst]
      by_cases hc : Legal board (pos.1 + a.1) (pos.2 + a.2)
          ∧ acc board (pos.1 + a.1) (pos.2 + a.2) < st.1
      · right
        refine ⟨l, a, [], rfl, hc.1, hc.2, by simp [hc], ?_, by simp⟩
        intro m1 hm1 hl1
        exact lt_of_lt_of_le hc.2 (hall m1 hm1 hl1)
      · left
        refine ⟨by simp [hc], ?_⟩
        intro m1 hm1 hl1
        rcases List.mem_append.1 hm1 with h | h
        · exact hall m1 h hl1
        · have : m1 = a := by simpa using h
          subst this
          exact not_lt.1 fun hh => hc ⟨hl1, hh⟩
    · right
      rw [hres]
      by_cases hc : Legal board (pos.1 + a.1) (pos.2 + a.2)
          ∧ acc board (pos.1 + a.1) (pos.2 + a.2) < acc board (pos.1 + m.1) (pos.2 + m.2)
      · refine ⟨l, a, [], rfl, hc.1, lt_trans hc.2 hlt, by simp [hc], ?_, by simp⟩
        intro m1 hm1 hl1
        rw [hl] at hm1
        rcases List.mem_append.1 hm1 with h | h
        · exact lt_trans hc.2 (hpre m1 h hl1)
        · rcases List.mem_cons.1 h with h | h
          · subst h; exact hc.2
          · exact lt_of_lt_of_le hc.2 (hpost m1 h hl1)
      · refine ⟨pre, m, post ++ [a], by simp [hl], hleg, hlt, by simp [hc], hpre, ?_⟩
        intro m1 hm1 hl1
        rcases List.mem_append.1 hm1 with h | h
        · exact hpost m1 h hl1
        · have : m1 = a := by simpa using h
          subst this
          exact not_lt.1 fun hh => hc ⟨hl1, hh⟩

theorem acc_lt_nine (board : Board) (x y : Int) : acc board x y < 9 :=
  lt_of_le_of_lt (acc_le_eight board x y) (by decide)

/-- With a legal move available the loop of `nextmove`, started at `ma = 9`, ends on the first
offset of minimal `acc` among the legal ones. -/
theorem nextmoveLoop_of_hasMove (board : Board) (pos p : Int × Int) (h : HasMove board pos) :
    ∃ pre m post, moves = pre ++ m :: post ∧ Legal board (pos.1 + m.1) (pos.2 + m.2) ∧
      nextmoveLoop board pos p
        = (acc board (pos.1 + m.1) (pos.2 + m.2), (pos.1 + m.1, pos.2 + m.2)) ∧
      (∀ m1 ∈ pre, Legal board (pos.1 + m1.1) (pos.2 + m1.2) →
        acc board (pos.1 + m.1) (pos.2 + m.2) < acc board (pos.1 + m1.1) (pos.2 + m1.2)) ∧
      (∀ m1 ∈ post, Legal board (pos.1 + m1.1) (pos.2 + m1.2) →
        acc board (pos.1 + m.1) (pos.2 + m.2) ≤ acc board (pos.1 + m1.1) (pos.2 + m1.2)) := by
  rcases foldl_nextmoveStep board pos moves (9, p) with
    ⟨_, hall⟩ | ⟨pre, m, post, hl, hleg, _, hres, hpre, hpost⟩
  · obtain ⟨m, hm, hleg⟩ := h
    have h9 := hall m hm hleg
    have h8 := acc_lt_nine board (pos.1 + m.1) (pos.2 + m.2)
    exact absurd h9 (not_le.2 h8)
  · exact ⟨pre, m, post, hl, hleg, hres, hpre, hpost⟩

/-- Without a legal move the loop of `nextmove` leaves `ma = 9` and `p` as they were. -/
theorem nextmoveLoop_of_not_hasMove (board : Board) (pos p : Int × Int)
    (h : ¬ HasMove board pos) : nextmoveLoop board pos p = (9, p) := by
  rcases foldl_nextmoveStep board pos moves (9, p) with
    ⟨hst, _⟩ | ⟨pre, m, post, hl, hleg, _, _, _, _⟩
  · exact hst
  · exact absurd ⟨m, by rw [hl]; simp, hleg⟩ h

theorem nextmove_of_not_hasMove (board : Board) (pos p : Int × Int)
    (h : ¬ HasMove board pos) : nextmove board pos p = p := by
  unfold nextmove; rw [nextmoveLoop_of_not_hasMove board pos p h]

/-- With a legal move available, the cell left in `p` is a legal target one knight move from
`pos`, whatever `p` held before. -/
theorem nextmove_legal (board : Board) (pos p : Int × Int) (h : HasMove board pos) :
    Legal board (nextmove board pos p).1 (nextmove board pos p).2 ∧
      KnightMove pos (nextmove board pos p) := by
  obtain ⟨pre, m, post, hl, hleg, hres, _, _⟩ := nextmoveLoop_of_hasMove board pos p h
  unfold nextmove
  rw [hres]
  exact ⟨hleg, m, by rw [hl]; simp, rfl⟩

theorem foldl_nextmoveStep_indep (board : Board) (pos : Int × Int) (l : List (Int × Int))
    (ma : Int) (p q : Int × Int) :
    l.foldl (nextmoveStep board pos) (ma, p) = l.foldl (nextmoveStep board pos) (ma, q)
      ∨ (l.foldl (nextmoveStep board pos) (ma, p) = (ma, p)
          ∧ l.foldl (nextmoveStep board pos) (ma, q) = (ma, q)) := by
  induction l generalizing ma p q with
  | nil => right; simp
  | cons m l ih =>
    simp only [List.foldl_cons, nextmoveStep_eq]
    by_cases hc : Legal board (pos.1 + m.1) (pos.2 + m.2)
        ∧ acc board (pos.1 + m.1) (pos.2 + m.2) < ma
    · left; simp [hc]
    · simp only [hc, if_false]
      exact ih ma p q

/-- With a legal move available, the cell left in `p` does not depend on what `p` held. -/
theorem nextmove_indep (board : Board) (pos p q : Int × Int) (h : HasMove board pos) :
    nextmove board pos p = nextmove board pos q := by
  unfold nextmove nextmoveLoop
  rcases foldl_nextmoveStep_indep board pos moves 9 p q with heq | ⟨hp, _⟩
  · rw [heq]
  · obtain ⟨pre, m, post, hl, hleg, hres, _, _⟩ := nextmoveLoop_of_hasMove board pos p h
    unfold nextmoveLoop at hres
    rw [hp] at hres
    have h8 := acc_lt_nine board (pos.1 + m.1) (pos.2 + m.2)
    have h9 : (9 : Int) = acc board (pos.1 + m.1) (pos.2 + m.2) := congrArg Prod.fst hres
    omega

/-! ### Claims about `nextmove` -/

/-- C2: for every board and every position from which at least one knight move is legal,
`nextmove` writes to `p` the cell `pos + moves[k]`, where `k` is the smallest index of the move
table among the legal candidates whose `acc` value is the minimum over all legal candidates:
the candidate `k` is legal, no legal candidate has a smaller `acc`, and every legal candidate
earlier in the table has a strictly larger `acc`. -/
theorem nextmove_min_acc_first (board : Board) (pos p : Int × Int) (h : HasMove board pos) :
    ∃ k m, k < 8 ∧ moves[k]? = some m ∧ Legal board (pos.1 + m.1) (pos.2 + m.2) ∧
      nextmove board pos p = (pos.1 + m.1, pos.2 + m.2) ∧
      (∀ (i : Nat) (m1 : Int × Int), moves[i]? = some m1 → Legal board (pos.1 + m1.1) (pos.2 + m1.2) →
        acc board (pos.1 + m.1) (pos.2 + m.2) ≤ acc board (pos.1 + m1.1) (pos.2 + m1.2)) ∧
      (∀ (i : Nat) (m1 : Int × Int), i < k → moves[i]? = some m1 → Legal board (pos.1 + m1.1) (pos.2 + m1.2) →
        acc board (pos.1 + m.1) (pos.2 + m.2) < acc board (pos.1 + m1.1) (pos.2 + m1.2)) := by
  obtain ⟨pre, m, post, hl, hleg, hres, hpre, hpost⟩ := nextmoveLoop_of_hasMove board pos p h
  have hk : moves[pre.length]? = some m := by
    rw [hl, List.getElem?_append_right (le_refl _)]; simp
  have hlen : pre.length < 8 := by
    have h8 : moves.length = 8 := rfl
    have := congrArg List.length hl
    simp at this
    omega
  refine ⟨pre.length, m, hlen, hk, hleg, by unfold nextmove; rw [hres], ?_, ?_⟩
  · intro i m1 hi hl1
    have hmem : m1 ∈ moves := List.getElem?_mem hi
    rw [hl] at hmem
    rcases List.mem_append.1 hmem with hm | hm
    · exact le_of_lt (hpre m1 hm hl1)
    · rcases List.mem_cons.1 hm with hm | hm
      · subst hm; exact le_refl _
      · exact hpost m1 hm hl1
  · intro i m1 hik hi hl1
    rw [hl, List.getElem?_append_left hik] at hi
    exact hpre m1 (List.getElem?_mem hi) hl1

theorem zeroBoard_hasMove : HasMove (fun _ _ => 0) (0, 0) :=
  ⟨(2, 1), by simp [moves], by simp [Legal]⟩

theorem nextmove_min_acc_first_witness :
    ∃ k m, k < 8 ∧ moves[k]? = some m ∧
      Legal (fun _ _ => 0) ((0 : Int) + m.1) ((0 : Int) + m.2) ∧
      nextmove (fun _ _ => 0) (0, 0) (0, 0) = ((0 : Int) + m.1, (0 : Int) + m.2) ∧
      (∀ (i : Nat) (m1 : Int × Int), moves[i]? = some m1 → Legal (fun _ _ => 0) ((0 : Int) + m1.1) ((0 : Int) + m1.2) →
        acc (fun _ _ => 0) ((0 : Int) + m.1) ((0 : Int) + m.2)
          ≤ acc (fun _ _ => 0) ((0 : Int) + m1.1) ((0 : Int) + m1.2)) ∧
      (∀ (i : Nat) (m1 : Int × Int), i < k → moves[i]? = some m1 →
        Legal (fun _ _ => 0) ((0 : Int) + m1.1) ((0 : Int) + m1.2) →
        acc (fun _ _ => 0) ((0 : Int) + m.1) ((0 : Int) + m.2)
          < acc (fun _ _ => 0) ((0 : Int) + m1.1) ((0 : Int) + m1.2)) :=
  nextmove_min_acc_first (fun _ _ => 0) (0, 0) (0, 0) zeroBoard_hasMove

/-- C3: for every board and every position, whenever at least one of the 8 candidates is legal
the cell that `nextmove` writes to `p` is inside the 8x8 board and has label 0 at call time. -/
theorem nextmove_on_board_unvisited (board : Board) (pos p : Int × Int)
    (h : HasMove board pos) :
    0 ≤ (nextmove board pos p).1 ∧ (nextmove board pos p).1 < 8 ∧
      0 ≤ (nextmove board pos p).2 ∧ (nextmove board pos p).2 < 8 ∧
      board (nextmove board pos p).1 (nextmove board pos p).2 = 0 :=
  (nextmove_legal board pos p h).1

theorem nextmove_on_board_unvisited_witness :
    0 ≤ (nextmove (fun _ _ => 0) (0, 0) (5, 5)).1 ∧ (nextmove (fun _ _ => 0) (0, 0) (5, 5)).1 < 8 ∧
      0 ≤ (nextmove (fun _ _ => 0) (0, 0) (5, 5)).2 ∧
      (nextmove (fun _ _ => 0) (0, 0) (5, 5)).2 < 8 ∧
      (fun _ _ => 0 : Board) (nextmove (fun _ _ => 0) (0, 0) (5, 5)).1
        (nextmove (fun _ _ => 0) (0, 0) (5, 5)).2 = 0 :=
  nextmove_on_board_unvisited (fun _ _ => 0) (0, 0) (5, 5) zeroBoard_hasMove

theorem exists_first {α : Type} (P : α → Prop) (l : List α) (h : ∃ m ∈ l, P m) :
    ∃ pre m post, l = pre ++ m :: post ∧ P m ∧ ∀ m1 ∈ pre, ¬ P m1 := by
  induction l with
  | nil => obtain ⟨m, hm, _⟩ := h; simp at hm
  | cons a l ih =>
    by_cases ha : P a
    · exact ⟨[], a, l, rfl, ha, by simp⟩
    · obtain ⟨m, hm, hP⟩ := h
      rcases List.mem_cons.1 hm with rfl | hm
      · exact absurd hP ha
      · obtain ⟨pre, m1, post, hl, hP1, hpre⟩ := ih ⟨m, hm, hP⟩
        refine ⟨a :: pre, m1, post, by simp [hl], hP1, ?_⟩
        intro m2 hm2
        rcases List.mem_cons.1 hm2 with rfl | hm2
        · exact ha
        · exact hpre m2 hm2

theorem foldl_nextmoveStep_illegal (board : Board) (pos : Int × Int) (l : List (Int × Int))
    (st : Int × (Int × Int))
    (h : ∀ m ∈ l, ¬ Legal board (pos.1 + m.1) (pos.2 + m.2)) :
    l.foldl (nextmoveStep board pos) st = st := by
  rcases foldl_nextmoveStep board pos l st with ⟨hst, _⟩ | ⟨pre, m, post, hl, hleg, _⟩
  · exact hst
  · exact absurd hleg (h m (by rw [hl]; simp))

theorem first_legal_adopted (board : Board) (pos p : Int × Int) (pre : List (Int × Int))
    (m : Int × Int) (hpre : ∀ m1 ∈ pre, ¬ Legal board (pos.1 + m1.1) (pos.2 + m1.2))
    (hleg : Legal board (pos.1 + m.1) (pos.2 + m.2)) :
    (pre ++ [m]).foldl (nextmoveStep board pos) (9, p)
      = (acc board (pos.1 + m.1) (pos.2 + m.2), (pos.1 + m.1, pos.2 + m.2)) := by
  rw [List.foldl_append, foldl_nextmoveStep_illegal board pos pre (9, p) hpre,
    List.foldl_cons, List.foldl_nil, nextmoveStep_eq]
  simp [hleg, acc_lt_nine]

theorem adopts_iff (board : Board) (pos p : Int × Int) :
    Adopts board pos p ↔ HasMove board pos := by
  constructor
  · rintro ⟨pre, m, post, hl, hok, _⟩
    exact ⟨m, by rw [hl]; simp, (MOVEOK_iff _ _ _).1 hok⟩
  · intro h
    obtain ⟨pre, m, post, hl, hleg, hpre⟩ :=
      exists_first (fun m : Int × Int => Legal board (pos.1 + m.1) (pos.2 + m.2)) moves h
    refine ⟨pre, m, post, hl, (MOVEOK_iff _ _ _).2 hleg, ?_⟩
    rw [foldl_nextmoveStep_illegal board pos pre (9, p) hpre]
    exact acc_lt_nine board _ _

/-- C4: for every board and every position, `nextmove` takes the assigning branch in some pass
of its loop if and only if at least one of the 8 knight offsets lands on a legal cell; when
none does, the loop ends with `ma = 9` and `p` exactly as it was passed in.  The initial bound
9 is strictly above every value of `acc`, so after the pass for the first legal candidate of
the table the loop state is that candidate with its `acc` value. -/
theorem nextmove_adopts_iff_hasMove (board : Board) (pos p : Int × Int) :
    (Adopts board pos p ↔ HasMove board pos) ∧
      (¬ HasMove board pos → nextmoveLoop board pos p = (9, p) ∧ nextmove board pos p = p) ∧
      (∀ x y : Int, acc board x y < 9) ∧
      (∀ pre m post, moves = pre ++ m :: post →
        (∀ m1 ∈ pre, ¬ Legal board (pos.1 + m1.1) (pos.2 + m1.2)) →
        Legal board (pos.1 + m.1) (pos.2 + m.2) →
        (pre ++ [m]).foldl (nextmoveStep board pos) (9, p)
          = (acc board (pos.1 + m.1) (pos.2 + m.2), (pos.1 + m.1, pos.2 + m.2))) := by
  refine ⟨adopts_iff board pos p, ?_, acc_lt_nine board, ?_⟩
  · intro h
    exact ⟨nextmoveLoop_of_not_hasMove board pos p h, nextmove_of_not_hasMove board pos p h⟩
  · intro pre m post _ hpre hleg
    exact first_legal_adopted board pos p pre m hpre hleg

/-! ### One iteration of the loop of `main` -/

theorem inBoard_iff (x y : Int) : inBoard x y = true ↔ 0 ≤ x ∧ x < 8 ∧ 0 ≤ y ∧ y < 8 := by
  simp [inBoard, and_assoc]

theorem Legal.inBoard {board : Board} {x y : Int} (h : Legal board x y) : inBoard x y = true :=
  (inBoard_iff x y).2 ⟨h.1, h.2.1, h.2.2.1, h.2.2.2.1⟩

theorem iter_of_hasMove (c : Int) (s : State) (h : HasMove s.board s.pos) :
    iter c s = some
      { board := setCell s.board (nextmove s.board s.pos s.p).1 (nextmove s.board s.pos s.p).2 c,
        pos := nextmove s.board s.pos s.p, p := nextmove s.board s.pos s.p } := by
  unfold iter
  simp [(nextmove_legal s.board s.pos s.p h).1.inBoard]

theorem iter_of_not_hasMove (c : Int) (s : State) (h : ¬ HasMove s.board s.pos)
    (hp : s.p = s.pos) (hb : inBoard s.pos.1 s.pos.2 = true) :
    iter c s = some { board := setCell s.board s.pos.1 s.pos.2 c, pos := s.pos, p := s.pos } := by
  unfold iter
  rw [nextmove_of_not_hasMove s.board s.pos s.p h, hp]
  simp [hb]

/-- C10: for every board, every position from which a legal knight move exists and every
label `c`, one iteration of the loop of `main` changes exactly one cell: the cell chosen by
`nextmove`, which is on the board and held 0, now holds `c`; every other cell keeps its label;
the position (and `p`) become that cell.  (`nextmove` and `acc` are functions of the board and
the position: the only stores to the globals are those of the iteration.) -/
theorem iter_changes_one_cell (c : Int) (s : State) (h : HasMove s.board s.pos) :
    ∃ s1, iter c s = some s1 ∧ s1.pos = nextmove s.board s.pos s.p ∧ s1.p = s1.pos ∧
      Legal s.board s1.pos.1 s1.pos.2 ∧ s1.board s1.pos.1 s1.pos.2 = c ∧
      ∀ i j : Int, (i, j) ≠ s1.pos → s1.board i j = s.board i j := by
  refine ⟨_, iter_of_hasMove c s h, rfl, rfl, (nextmove_legal s.board s.pos s.p h).1, ?_, ?_⟩
  · simp [setCell]
  · intro i j hij
    have : ¬ (i = (nextmove s.board s.pos s.p).1 ∧ j = (nextmove s.board s.pos s.p).2) := by
      rintro ⟨h1, h2⟩
      exact hij (Prod.ext h1 h2)
    simp [setCell, this]

theorem iter_changes_one_cell_witness :
    HasMove (initState 0 0 (3, 3)).board (initState 0 0 (3, 3)).pos ∧
    ∃ s1, iter 2 (initState 0 0 (3, 3)) = some s1 ∧
      s1.pos = nextmove (initState 0 0 (3, 3)).board (initState 0 0 (3, 3)).pos
        (initState 0 0 (3, 3)).p ∧ s1.p = s1.pos ∧
      Legal (initState 0 0 (3, 3)).board s1.pos.1 s1.pos.2 ∧ s1.board s1.pos.1 s1.pos.2 = 2 ∧
      ∀ i j : Int, (i, j) ≠ s1.pos → s1.board i j = (initState 0 0 (3, 3)).board i j :=
  ⟨⟨(2, 1), by simp [moves], by simp [Legal, initState, setCell]⟩,
    iter_changes_one_cell 2 (initState 0 0 (3, 3))
      ⟨(2, 1), by simp [moves], by simp [Legal, initState, setCell]⟩⟩

theorem Legal.setCell_nonzero {board : Board} {x y c i j : Int} (hc : c ≠ 0)
    (h : Legal (setCell board x y c) i j) : Legal board i j := by
  obtain ⟨h1, h2, h3, h4, h5⟩ := h
  refine ⟨h1, h2, h3, h4, ?_⟩
  unfold setCell at h5
  by_cases hij : i = x ∧ j = y
  · simp [hij] at h5; exact absurd h5 hc
  · simpa [hij] using h5

theorem not_hasMove_setCell {board : Board} {pos : Int × Int} (x y : Int) {c : Int}
    (hc : c ≠ 0) (h : ¬ HasMove board pos) : ¬ HasMove (setCell board x y c) pos := by
  rintro ⟨m, hm, hleg⟩
  exact h ⟨m, hm, hleg.setCell_nonzero hc⟩

/-- From a dead end reached with `p` equal to the position, the loop keeps running: every
further iteration stores its label in the current cell and nothing else changes. -/
theorem runFrom_stuck (n : Nat) (c : Int) (s : State) (hc : 0 < c)
    (h : ¬ HasMove s.board s.pos) (hp : s.p = s.pos) (hb : inBoard s.pos.1 s.pos.2 = true) :
    ∃ s1, runFrom c n s = some s1 ∧ s1.pos = s.pos ∧ s1.p = s.pos ∧
      ¬ HasMove s1.board s1.pos ∧
      (0 < n → s1.board s.pos.1 s.pos.2 = c + n - 1) ∧
      ∀ i j : Int, (i, j) ≠ s.pos → s1.board i j = s.board i j := by
  induction n generalizing c s with
  | zero => exact ⟨s, rfl, rfl, hp, h, by simp, fun _ _ _ => rfl⟩
  | succ n ih =>
    have hc0 : c ≠ 0 := ne_of_gt hc
    obtain ⟨s1, hrun, hpos, hp1, hstuck, hlab, hframe⟩ :=
      ih (c + 1) { board := setCell s.board s.pos.1 s.pos.2 c, pos := s.pos, p := s.pos }
        (by omega) (not_hasMove_setCell _ _ hc0 h) rfl hb
    refine ⟨s1, ?_, hpos, hp1, hstuck, ?_, ?_⟩
    · simp only [runFrom, iter_of_not_hasMove c s h hp hb, Option.some_bind]
      exact hrun
    · intro _
      rcases Nat.eq_zero_or_pos n with hn | hn
      · subst hn
        simp only [runFrom] at hrun
        cases hrun
        simp [setCell]
      · have := hlab hn
        simp only at this
        rw [this]; push_cast; ring
    · intro i j hij
      rw [hframe i j hij]
      have : ¬ (i = s.pos.1 ∧ j = s.pos.2) := fun hh => hij (Prod.ext hh.1 hh.2)
      simp [setCell, this]

theorem cornerState_stuck : ¬ HasMove cornerState.board cornerState.pos := by
  rintro ⟨m, hm, hleg⟩
  simp only [moves, List.mem_cons, List.mem_singleton, List.not_mem_nil, or_false] at hm
  rcases hm with rfl | rfl | rfl | rfl | rfl | rfl | rfl | rfl <;>
    simp [Legal, cornerState, cornerBoard] at hleg

/-- C5 fails as stated: at the dead end `cornerState` (no knight move is legal from `(0, 0)`)
the iteration for the label 8 does not halt: it stores 8 in the cell `(0, 0)`, which held 7,
and the next iteration runs as well and stores 9 there. -/
theorem stuck_iteration_overwrites :
    ¬ HasMove cornerState.board cornerState.pos ∧
      (∃ s1, iter 8 cornerState = some s1 ∧ s1.board 0 0 = 8 ∧ cornerState.board 0 0 = 7) ∧
      (∃ s2, runFrom 8 2 cornerState = some s2 ∧ s2.board 0 0 = 9) := by
  refine ⟨cornerState_stuck, ?_, ?_⟩
  · refine ⟨_, iter_of_not_hasMove 8 cornerState cornerState_stuck rfl (by decide), ?_, ?_⟩
    · simp [setCell, cornerState]
    · simp [cornerState, cornerBoard]
  · obtain ⟨s2, hrun, _, _, _, hlab, _⟩ :=
      runFrom_stuck 2 8 cornerState (by decide) cornerState_stuck rfl (by decide)
    exact ⟨s2, hrun, by simpa [cornerState] using hlab (by decide)⟩

/-- C5, amended: for every board and every position on it from which no knight move is legal,
with `p` equal to the position (as after any earlier iteration of the loop), the iteration for
the label `c` does not halt and skips nothing: it leaves the position unchanged, stores `c` in
the current cell, changes no other cell, and the loop goes on with the remaining iterations
from that state. -/
theorem stuck_iteration_continues (c : Int) (n : Nat) (s : State)
    (h : ¬ HasMove s.board s.pos) (hp : s.p = s.pos) (hb : inBoard s.pos.1 s.pos.2 = true) :
    ∃ s1, iter c s = some s1 ∧ s1.pos = s.pos ∧ s1.p = s.pos ∧
      s1.board s.pos.1 s.pos.2 = c ∧
      (∀ i j : Int, (i, j) ≠ s.pos → s1.board i j = s.board i j) ∧
      runFrom c (n + 1) s = runFrom (c + 1) n s1 := by
  refine ⟨_, iter_of_not_hasMove c s h hp hb, rfl, rfl, by simp [setCell], ?_, ?_⟩
  · intro i j hij
    have : ¬ (i = s.pos.1 ∧ j = s.pos.2) := fun hh => hij (Prod.ext hh.1 hh.2)
    simp [setCell, this]
  · simp [runFrom, iter_of_not_hasMove c s h hp hb]

theorem stuck_iteration_continues_witness :
    ¬ HasMove cornerState.board cornerState.pos ∧ cornerState.p = cornerState.pos ∧
    inBoard cornerState.pos.1 cornerState.pos.2 = true ∧
    ∃ s1, iter 8 cornerState = some s1 ∧ s1.pos = cornerState.pos ∧ s1.p = cornerState.pos ∧
      s1.board cornerState.pos.1 cornerState.pos.2 = 8 ∧
      (∀ i j : Int, (i, j) ≠ cornerState.pos → s1.board i j = cornerState.board i j) ∧
      runFrom 8 (3 + 1) cornerState = runFrom (8 + 1) 3 s1 :=
  ⟨cornerState_stuck, rfl, by decide,
    stuck_iteration_continues 8 3 cornerState cornerState_stuck rfl (by decide)⟩

/-! ### The first call of `nextmove` from the corner -/

theorem initState_zero_hasMove (p : Int × Int) :
    HasMove (initState 0 0 p).board (initState 0 0 p).pos :=
  ⟨(2, 1), by simp [moves], by simp [Legal, initState, setCell]⟩

/-- C8: on the board whose only nonzero cell is `(0, 0)` with label -1, with the position at
`(0, 0)`: the targets of the offsets (-2,-1), (2,-1), (-1,-2), (1,-2), (-2,1) and (-1,2) are
outside the board, the first legal candidate in table order is `(2, 1)` (offset (2,1), index 5
of the 8 offsets), the only other legal candidate is `(1, 2)`, both have accessibility 5, and
`nextmove` returns `(2, 1)` whatever `p` held. -/
theorem nextmove_from_corner (p : Int × Int) :
    (initState 0 0 p).board 0 0 = -1 ∧
      (∀ i j : Int, (i, j) ≠ (0, 0) → (initState 0 0 p).board i j = 0) ∧
      moves.length = 8 ∧
      inBoard (0 + -2) (0 + -1) = false ∧ inBoard (0 + 2) (0 + -1) = false ∧
      inBoard (0 + -1) (0 + -2) = false ∧ inBoard (0 + 1) (0 + -2) = false ∧
      inBoard (0 + -2) (0 + 1) = false ∧ inBoard (0 + -1) (0 + 2) = false ∧
      moves[5]? = some (2, 1) ∧
      (∀ (i : Nat) (m : Int × Int), i < 5 → moves[i]? = some m →
        ¬ Legal (initState 0 0 p).board (0 + m.1) (0 + m.2)) ∧
      Legal (initState 0 0 p).board 2 1 ∧ Legal (initState 0 0 p).board 1 2 ∧
      (∀ m ∈ moves, Legal (initState 0 0 p).board (0 + m.1) (0 + m.2) →
        m = (2, 1) ∨ m = (1, 2)) ∧
      acc (initState 0 0 p).board 2 1 = 5 ∧ acc (initState 0 0 p).board 1 2 = 5 ∧
      nextmove (initState 0 0 p).board (initState 0 0 p).pos p = (2, 1) := by
  have hboard : (initState 0 0 p).board = (initState 0 0 (0, 0)).board := rfl
  have hpos : (initState 0 0 p).pos = (0, 0) := rfl
  have hall : ∀ m ∈ moves, Legal (initState 0 0 p).board (0 + m.1) (0 + m.2) →
      m = (2, 1) ∨ m = (1, 2) := by
    intro m hm hleg
    simp only [moves, List.mem_cons, List.mem_singleton, List.not_mem_nil, or_false] at hm
    rcases hm with rfl | rfl | rfl | rfl | rfl | rfl | rfl | rfl <;>
      simp [Legal] at hleg <;> simp
  refine ⟨by simp [initState, setCell], ?_, rfl, by decide, by decide, by decide, by decide,
    by decide, by decide, rfl, ?_, by simp [Legal, initState, setCell],
    by simp [Legal, initState, setCell], hall, ?_, ?_, ?_⟩
  · intro i j hij
    have : ¬ (i = 0 ∧ j = 0) := fun hh => hij (Prod.ext hh.1 hh.2)
    simp [initState, setCell, this]
  · intro i m hi hm hleg
    have hmem := List.getElem?_mem hm
    rcases hall m hmem hleg with rfl | rfl
    · have : i = 5 := by
        simp only [moves] at hm
        interval_cases i <;> simp at hm
      omega
    · have : i = 7 := by
        simp only [moves] at hm
        interval_cases i <;> simp at hm
      omega
  · rw [hboard]; decide
  · rw [hboard]; decide
  · rw [hboard, hpos,
      nextmove_indep (initState 0 0 (0, 0)).board (0, 0) p (0, 0) (initState_zero_hasMove (0, 0))]
    decide

/-! ### The position follows the label last written -/

/-- From every start square on the nearly empty initial board a knight move is legal. -/
theorem initState_hasMove (x y : Int) (p0 : Int × Int)
    (hx : 0 ≤ x ∧ x < 8) (hy : 0 ≤ y ∧ y < 8) :
    HasMove (initState x y p0).board (initState x y p0).pos := by
  by_cases h1 : x ≤ 5 <;> by_cases h2 : y ≤ 6
  · refine ⟨(2, 1), by simp [moves], ?_⟩
    simp only [Legal, initState, setCell]
    refine ⟨by omega, by omega, by omega, by omega, ?_⟩
    simp
  · refine ⟨(2, -1), by simp [moves], ?_⟩
    simp only [Legal, initState, setCell]
    refine ⟨by omega, by omega, by omega, by omega, ?_⟩
    simp
  · refine ⟨(-2, 1), by simp [moves], ?_⟩
    simp only [Legal, initState, setCell]
    refine ⟨by omega, by omega, by omega, by omega, ?_⟩
    simp
  · refine ⟨(-2, -1), by simp [moves], ?_⟩
    simp only [Legal, initState, setCell]
    refine ⟨by omega, by omega, by omega, by omega, ?_⟩
    simp

/-- One iteration from a state whose `p` is the position, or which has a legal move: the store
is inside the array, and afterwards `p` is the position and the cell there holds `c`. -/
theorem iter_pos (c : Int) (s : State) (hb : inBoard s.pos.1 s.pos.2 = true)
    (hp : s.p = s.pos ∨ HasMove s.board s.pos) :
    ∃ s1, iter c s = some s1 ∧ inBoard s1.pos.1 s1.pos.2 = true ∧ s1.p = s1.pos ∧
      s1.board s1.pos.1 s1.pos.2 = c := by
  by_cases h : HasMove s.board s.pos
  · exact ⟨_, iter_of_hasMove c s h, (nextmove_legal s.board s.pos s.p h).1.inBoard, rfl,
      by simp [setCell]⟩
  · have hp1 : s.p = s.pos := hp.resolve_right h
    exact ⟨_, iter_of_not_hasMove c s h hp1 hb, hb, rfl, by simp [setCell]⟩

theorem runFrom_pos (n : Nat) (c : Int) (s : State) (hb : inBoard s.pos.1 s.pos.2 = true)
    (hp : s.p = s.pos ∨ HasMove s.board s.pos) :
    ∃ s1, runFrom c n s = some s1 ∧ inBoard s1.pos.1 s1.pos.2 = true ∧
      (0 < n → s1.board s1.pos.1 s1.pos.2 = c + n - 1) := by
  induction n generalizing c s with
  | zero => exact ⟨s, rfl, hb, by simp⟩
  | succ n ih =>
    obtain ⟨s1, hit, hb1, hp1, hlab1⟩ := iter_pos c s hb hp
    obtain ⟨s2, hrun, hb2, hlab2⟩ := ih (c + 1) s1 hb1 (Or.inl hp1)
    refine ⟨s2, by simp [runFrom, hit, hrun], hb2, ?_⟩
    intro _
    rcases Nat.eq_zero_or_pos n with hn | hn
    · subst hn
      simp only [runFrom] at hrun
      cases hrun
      simpa using hlab1
    · rw [hlab2 hn]; push_cast; ring

/-- C7: for every start square on the board, whatever `p` holds at first, after initialisation
(`k = 0`) and after each of the 63 iterations (`k = 1..63`) every store has been inside the
array (the run is defined), the position is inside `0..7 x 0..7`, and the cell at the position
carries the label last written: -1 before the first iteration and `k + 1`, the label of
iteration `k`, after it. -/
theorem pos_on_board_last_label (x y : Int) (p0 : Int × Int) (k : Nat)
    (hx : 0 ≤ x ∧ x < 8) (hy : 0 ≤ y ∧ y < 8) (hk : k ≤ 63) :
    ∃ s, runFrom 2 k (initState x y p0) = some s ∧
      0 ≤ s.pos.1 ∧ s.pos.1 < 8 ∧ 0 ≤ s.pos.2 ∧ s.pos.2 < 8 ∧
      s.board s.pos.1 s.pos.2 = if k = 0 then -1 else (k : Int) + 1 := by
  have hb : inBoard (initState x y p0).pos.1 (initState x y p0).pos.2 = true :=
    (inBoard_iff _ _).2 ⟨hx.1, hx.2, hy.1, hy.2⟩
  obtain ⟨s, hrun, hbs, hlab⟩ :=
    runFrom_pos k 2 (initState x y p0) hb (Or.inr (initState_hasMove x y p0 hx hy))
  obtain ⟨h1, h2, h3, h4⟩ := (inBoard_iff _ _).1 hbs
  refine ⟨s, hrun, h1, h2, h3, h4, ?_⟩
  rcases Nat.eq_zero_or_pos k with h0 | h0
  · subst h0
    simp only [runFrom] at hrun
    cases hrun
    simp [initState, setCell]
  · rw [hlab h0, if_neg (by omega)]; ring

theorem pos_on_board_last_label_witness :
    (0 ≤ (3 : Int) ∧ (3 : Int) < 8) ∧ (0 ≤ (4 : Int) ∧ (4 : Int) < 8) ∧ 63 ≤ 63 ∧
    ∃ s, runFrom 2 63 (initState 3 4 (9, 9)) = some s ∧
      0 ≤ s.pos.1 ∧ s.pos.1 < 8 ∧ 0 ≤ s.pos.2 ∧ s.pos.2 < 8 ∧
      s.board s.pos.1 s.pos.2 = if 63 = 0 then -1 else ((63 : Nat) : Int) + 1 :=
  ⟨by decide, by decide, by decide,
    pos_on_board_last_label 3 4 (9, 9) 63 (by decide) (by decide) (by decide)⟩

/-! ### The bit-board evaluator simulates the program -/

theorem bitAt_eq (m j : Nat) : bitAt m j = (m.testBit j).toNat := by
  unfold bitAt
  show (m >>> j) &&& 1 = _
  rw [Nat.testBit, Nat.and_comm]
  have h : 1 &&& m >>> j = 0 ∨ 1 &&& m >>> j = 1 := by
    have := Nat.and_le_left (n := 1) (m := m >>> j)
    omega
  rcases h with h | h <;> simp [h]

theorem bitAt_le_one (m j : Nat) : bitAt m j ≤ 1 := by
  rw [bitAt_eq]; cases m.testBit j <;> simp

theorem bitAt_lor (m j k : Nat) :
    bitAt (Nat.lor m (Nat.shiftLeft 1 j)) k = if k = j then 1 else bitAt m k := by
  rw [bitAt_eq, bitAt_eq]
  show ((m ||| 1 <<< j).testBit k).toNat = _
  rw [Nat.testBit_or, Nat.one_shiftLeft, Nat.testBit_two_pow]
  by_cases h : k = j
  · subst h; simp
  · have : ¬ j = k := fun hh => h hh.symm
    simp [h, this]

theorem idx_inj (x y a b : Int) (hx : -2 ≤ x ∧ x < 10) (hy : -2 ≤ y ∧ y < 10)
    (ha : -2 ≤ a ∧ a < 10) (hb : -2 ≤ b ∧ b < 10) (h : idx x y = idx a b) :
    x = a ∧ y = b := by
  unfold idx at h
  omega

theorem border_bits : ∀ i < 144,
    (bitAt border i = 0 ↔ (2 ≤ i / 12 ∧ i / 12 < 10 ∧ 2 ≤ i % 12 ∧ i % 12 < 10)) := by
  decide

theorem maskOK_border : MaskOK (fun _ _ => 0) border := by
  intro x y h1 h2 h3 h4
  have hi : idx x y < 144 := by unfold idx; omega
  rw [border_bits (idx x y) hi]
  unfold idx Legal
  constructor
  · intro h; refine ⟨by omega, by omega, by omega, by omega, rfl⟩
  · intro h; omega

theorem maskOK_setCell {board : Board} {m : Nat} (h : MaskOK board m) (a b c : Int)
    (ha : -2 ≤ a ∧ a < 10) (hb : -2 ≤ b ∧ b < 10) (hc : c ≠ 0) :
    MaskOK (setCell board a b c) (Nat.lor m (Nat.shiftLeft 1 (idx a b))) := by
  intro x y h1 h2 h3 h4
  rw [bitAt_lor]
  by_cases hi : idx x y = idx a b
  · obtain ⟨rfl, rfl⟩ := idx_inj x y a b ⟨h1, h2⟩ ⟨h3, h4⟩ ha hb hi
    simp [Legal, setCell, hc]
  · have hne : ¬ (x = a ∧ y = b) := by
      rintro ⟨rfl, rfl⟩; exact hi rfl
    rw [if_neg hi, h x y h1 h2 h3 h4]
    simp [Legal, setCell, hne]

theorem maskOK_init (x y : Int) (p0 : Int × Int) (hx : 0 ≤ x ∧ x < 8) (hy : 0 ≤ y ∧ y < 8) :
    MaskOK (initState x y p0).board (maskOf x y) :=
  maskOK_setCell maskOK_border x y (-1) ⟨by omega, by omega⟩ ⟨by omega, by omega⟩ (by decide)

theorem foldl_sum (P : Int × Int → Bool) (l : List (Int × Int)) (a0 : Int) :
    l.foldl (fun a m => if P m then a + 1 else a) a0
      = a0 + (l.map fun m => if P m then (1 : Int) else 0).sum := by
  induction l generalizing a0 with
  | nil => simp
  | cons m l ih =>
    simp only [List.foldl_cons, ih, List.map_cons, List.sum_cons]
    by_cases h : P m = true
    · simp [h]; ring
    · simp [h]

/-- The indicator of `MOVEOK` at a cell of the padded board, read off the mask. -/
theorem moveok_bit {board : Board} {m : Nat} (h : MaskOK board m) (x y dx dy : Int) (j : Nat)
    (hx : 0 ≤ x ∧ x < 8) (hy : 0 ≤ y ∧ y < 8) (hdx : -2 ≤ dx ∧ dx ≤ 2) (hdy : -2 ≤ dy ∧ dy ≤ 2)
    (hj : idx (x + dx) (y + dy) = j) :
    (if MOVEOK board (x + dx) (y + dy) = true then (1 : Int) else 0) = 1 - (bitAt m j : Int) := by
  have hb := h (x + dx) (y + dy) (by omega) (by omega) (by omega) (by omega)
  rw [hj] at hb
  have hle := bitAt_le_one m j
  by_cases hl : Legal board (x + dx) (y + dy)
  · have h0 : bitAt m j = 0 := hb.2 hl
    rw [if_pos ((MOVEOK_iff _ _ _).2 hl), h0]; simp
  · have h0 : bitAt m j ≠ 0 := fun hh => hl (hb.1 hh)
    have h1 : bitAt m j = 1 := by omega
    rw [if_neg (fun hh => hl ((MOVEOK_iff _ _ _).1 hh)), h1]; simp

theorem acc_eq_accP {board : Board} {m : Nat} (h : MaskOK board m) (x y : Int)
    (hx : 0 ≤ x ∧ x < 8) (hy : 0 ≤ y ∧ y < 8) :
    acc board x y = (accP m (idx x y) : Int) := by
  unfold acc
  rw [foldl_sum (fun m => MOVEOK board (x + m.1) (y + m.2))]
  simp only [moves, List.map_cons, List.map_nil, List.sum_cons, List.sum_nil]
  have e1 := moveok_bit h x y (-2) (-1) (idx x y - 25) hx hy (by decide) (by decide)
    (by unfold idx; omega)
  have e2 := moveok_bit h x y 2 (-1) (idx x y + 23) hx hy (by decide) (by decide)
    (by unfold idx; omega)
  have e3 := moveok_bit h x y (-1) (-2) (idx x y - 14) hx hy (by decide) (by decide)
    (by unfold idx; omega)
  have e4 := moveok_bit h x y 1 (-2) (idx x y + 10) hx hy (by decide) (by decide)
    (by unfold idx; omega)
  have e5 := moveok_bit h x y (-2) 1 (idx x y - 23) hx hy (by decide) (by decide)
    (by unfold idx; omega)
  have e6 := moveok_bit h x y 2 1 (idx x y + 25) hx hy (by decide) (by decide)
    (by unfold idx; omega)
  have e7 := moveok_bit h x y (-1) 2 (idx x y - 10) hx hy (by decide) (by decide)
    (by unfold idx; omega)
  have e8 := moveok_bit h x y 1 2 (idx x y + 14) hx hy (by decide) (by decide)
    (by unfold idx; omega)
  rw [e1, e2, e3, e4, e5, e6, e7, e8]
  have b1 := bitAt_le_one m (idx x y - 25)
  have b2 := bitAt_le_one m (idx x y + 23)
  have b3 := bitAt_le_one m (idx x y - 14)
  have b4 := bitAt_le_one m (idx x y + 10)
  have b5 := bitAt_le_one m (idx x y - 23)
  have b6 := bitAt_le_one m (idx x y + 25)
  have b7 := bitAt_le_one m (idx x y - 10)
  have b8 := bitAt_le_one m (idx x y + 14)
  unfold accP
  simp only [Nat.sub_eq, Nat.add_eq]
  omega

theorem blt_iff (a b : Nat) : Nat.blt a b = true ↔ a < b := by
  simp [Nat.blt]; omega

theorem stepP_sim {board : Board} {m : Nat} (h : MaskOK board m) (pos : Int × Int)
    (dx dy : Int) (j : Nat) (st : Int × (Int × Int)) (stN : Nat × Nat)
    (hx : 0 ≤ pos.1 ∧ pos.1 < 8) (hy : 0 ≤ pos.2 ∧ pos.2 < 8)
    (hdx : -2 ≤ dx ∧ dx ≤ 2) (hdy : -2 ≤ dy ∧ dy ≤ 2)
    (hj : idx (pos.1 + dx) (pos.2 + dy) = j) (hst : StRel st stN) :
    StRel (nextmoveStep board pos st (dx, dy)) (stepP m j stN) := by
  have hb := h (pos.1 + dx) (pos.2 + dy) (by omega) (by omega) (by omega) (by omega)
  rw [hj] at hb
  rw [nextmoveStep_eq]
  unfold stepP
  by_cases hl : Legal board (pos.1 + dx) (pos.2 + dy)
  · have h0 : bitAt m j = 0 := hb.2 hl
    have hacc := acc_eq_accP h (pos.1 + dx) (pos.2 + dy) ⟨hl.1, hl.2.1⟩ ⟨hl.2.2.1, hl.2.2.2.1⟩
    rw [hj] at hacc
    have hbeq : Nat.beq (bitAt m j) 0 = true := by rw [h0]; rfl
    rw [hbeq]
    by_cases hlt : accP m j < stN.1
    · have hblt : Nat.blt (accP m j) stN.1 = true := (blt_iff _ _).2 hlt
      have hlt1 : acc board (pos.1 + dx) (pos.2 + dy) < st.1 := by
        rw [hacc, hst.1]; exact_mod_cast hlt
      simp only [hblt, hl, hlt1, and_self, if_true]
      exact ⟨hacc, hl.inBoard, hj.symm⟩
    · have hblt : Nat.blt (accP m j) stN.1 = false := by
        cases hbl : Nat.blt (accP m j) stN.1
        · rfl
        · exact absurd ((blt_iff _ _).1 hbl) hlt
      have hlt1 : ¬ acc board (pos.1 + dx) (pos.2 + dy) < st.1 := by
        rw [hacc, hst.1]; exact_mod_cast hlt
      simp only [hblt, hlt1, and_false, if_false]
      exact hst
  · have h0 : bitAt m j ≠ 0 := fun hh => hl (hb.1 hh)
    have hbeq : Nat.beq (bitAt m j) 0 = false := by
      have := bitAt_le_one m j
      have h1 : bitAt m j = 1 := by omega
      rw [h1]; rfl
    simp only [hbeq, hl, false_and, if_false]
    exact hst

theorem nextP_sim {board : Board} {m : Nat} (h : MaskOK board m) (pos : Int × Int)
    (hb : inBoard pos.1 pos.2 = true) :
    StRel (nextmoveLoop board pos pos) (nextP m (idx pos.1 pos.2)) := by
  obtain ⟨h1, h2, h3, h4⟩ := (inBoard_iff _ _).1 hb
  have hx : 0 ≤ pos.1 ∧ pos.1 < 8 := ⟨h1, h2⟩
  have hy : 0 ≤ pos.2 ∧ pos.2 < 8 := ⟨h3, h4⟩
  have h0 : StRel (9, pos) (9, idx pos.1 pos.2) := ⟨rfl, hb, rfl⟩
  unfold nextmoveLoop nextP
  simp only [moves, List.foldl_cons, List.foldl_nil, Nat.sub_eq, Nat.add_eq]
  refine stepP_sim h pos 1 2 _ _ _ hx hy (by decide) (by decide) (by unfold idx; omega) ?_
  refine stepP_sim h pos (-1) 2 _ _ _ hx hy (by decide) (by decide) (by unfold idx; omega) ?_
  refine stepP_sim h pos 2 1 _ _ _ hx hy (by decide) (by decide) (by unfold idx; omega) ?_
  refine stepP_sim h pos (-2) 1 _ _ _ hx hy (by decide) (by decide) (by unfold idx; omega) ?_
  refine stepP_sim h pos 1 (-2) _ _ _ hx hy (by decide) (by decide) (by unfold idx; omega) ?_
  refine stepP_sim h pos (-1) (-2) _ _ _ hx hy (by decide) (by decide) (by unfold idx; omega) ?_
  refine stepP_sim h pos 2 (-1) _ _ _ hx hy (by decide) (by decide) (by unfold idx; omega) ?_
  exact stepP_sim h pos (-2) (-1) _ _ _ hx hy (by decide) (by decide) (by unfold idx; omega) h0

/-- With `p` equal to the position, the loop of `nextmove` ends below 9 exactly when a move is
legal. -/
theorem nextmoveLoop_lt_nine_iff (board : Board) (pos p : Int × Int) :
    (nextmoveLoop board pos p).1 < 9 ↔ HasMove board pos := by
  constructor
  · intro hlt
    by_contra hno
    rw [nextmoveLoop_of_not_hasMove board pos p hno] at hlt
    exact absurd hlt (lt_irrefl _)
  · intro h
    obtain ⟨pre, m, post, _, _, hres, _, _⟩ := nextmoveLoop_of_hasMove board pos p h
    rw [hres]
    exact acc_lt_nine board _ _

/-- One iteration of the program is one step of the evaluator. -/
theorem sim_iter {s : State} {m i : Nat} (c : Int) (hc : c ≠ 0) (h : Sim s m i) :
    ∃ s1, iter c s = some s1 ∧
      Sim s1 (Nat.lor m (Nat.shiftLeft 1 (nextP m i).2)) (nextP m i).2 ∧
      (Nat.blt (nextP m i).1 9 = true ↔ HasMove s.board s.pos) := by
  obtain ⟨hM, hb, hp, hi⟩ := h
  have hrel := nextP_sim hM s.pos hb
  rw [← hi] at hrel
  obtain ⟨r1, r2, r3⟩ := hrel
  have hq : nextmove s.board s.pos s.p = (nextmoveLoop s.board s.pos s.pos).2 := by
    rw [hp]; rfl
  obtain ⟨q1, q2, q3, q4⟩ := (inBoard_iff _ _).1 r2
  refine ⟨{ board := setCell s.board (nextmoveLoop s.board s.pos s.pos).2.1
              (nextmoveLoop s.board s.pos s.pos).2.2 c,
            pos := (nextmoveLoop s.board s.pos s.pos).2,
            p := (nextmoveLoop s.board s.pos s.pos).2 }, ?_, ⟨?_, r2, rfl, r3⟩, ?_⟩
  · unfold iter
    rw [hq]
    simp [r2]
  · rw [r3]
    exact maskOK_setCell hM _ _ c ⟨by omega, by omega⟩ ⟨by omega, by omega⟩ hc
  · rw [← nextmoveLoop_lt_nine_iff s.board s.pos s.pos, r1, blt_iff]
    exact ⟨fun hh => by exact_mod_cast hh, fun hh => by exact_mod_cast hh⟩

theorem sim_init (x y : Int) (hx : 0 ≤ x ∧ x < 8) (hy : 0 ≤ y ∧ y < 8) :
    Sim (initState x y (x, y)) (maskOf x y) (idx x y) :=
  ⟨maskOK_init x y (x, y) hx hy, (inBoard_iff _ _).2 ⟨hx.1, hx.2, hy.1, hy.2⟩, rfl, rfl⟩

/-- The run does not depend on what `p` holds at first. -/
theorem runFrom_init_indep (x y : Int) (p0 : Int × Int) (n : Nat) (c : Int)
    (hx : 0 ≤ x ∧ x < 8) (hy : 0 ≤ y ∧ y < 8) (hn : 0 < n) :
    runFrom c n (initState x y p0) = runFrom c n (initState x y (x, y)) := by
  obtain ⟨k, rfl⟩ : ∃ k, n = k + 1 := ⟨n - 1, by omega⟩
  have h1 : iter c (initState x y p0) = iter c (initState x y (x, y)) := by
    rw [iter_of_hasMove c _ (initState_hasMove x y p0 hx hy),
      iter_of_hasMove c _ (initState_hasMove x y (x, y) hx hy)]
    have := nextmove_indep (initState x y p0).board (initState x y p0).pos p0 (x, y)
      (initState_hasMove x y p0 hx hy)
    simp only [initState] at this ⊢
    rw [this]
  simp only [runFrom, h1]

/-- The evaluator follows the program for any number of iterations. -/
theorem sim_run (n : Nat) (c : Int) {s : State} {m i : Nat} (hc : 0 < c) (h : Sim s m i) :
    ∃ s1, runFrom c n s = some s1 ∧ Sim s1 (stateP n m i).1 (stateP n m i).2 := by
  induction n generalizing c s m i with
  | zero => exact ⟨s, rfl, h⟩
  | succ n ih =>
    obtain ⟨s1, hit, hsim, _⟩ := sim_iter c (ne_of_gt hc) h
    obtain ⟨s2, hrun, hsim2⟩ := ih (c + 1) (by omega) hsim
    exact ⟨s2, by simp [runFrom, hit, hrun], by simpa [stateP] using hsim2⟩

theorem sim_movesAhead (n : Nat) (c : Int) {s : State} {m i : Nat} (hc : 0 < c)
    (h : Sim s m i) (hchk : checkP n m i = true) : MovesAhead n c s := by
  induction n generalizing c s m i with
  | zero => trivial
  | succ n ih =>
    obtain ⟨s1, hit, hsim, hmove⟩ := sim_iter c (ne_of_gt hc) h
    simp only [checkP, Bool.and_eq_true] at hchk
    refine ⟨hmove.1 hchk.1, ?_⟩
    intro s2 hs2
    rw [hit] at hs2
    cases hs2
    exact ih (c + 1) (by omega) hsim hchk.2

/-! ### The 64 runs -/

set_option maxRecDepth 100000 in
/-- Evaluation of the 64 runs: from every start square the first `horizon` iterations each
find a legal move. -/
theorem checkP_starts : ∀ i < 8, ∀ j < 8,
    checkP (horizon (i : Nat) (j : Nat)) (maskOf (i : Nat) (j : Nat)) (idx (i : Nat) (j : Nat))
      = true := by
  decide!

theorem movesAhead_mono (n k : Nat) (c : Int) (s : State) (h : MovesAhead n c s) (hk : k ≤ n) :
    MovesAhead k c s := by
  induction k generalizing n c s with
  | zero => trivial
  | succ k ih =>
    obtain ⟨n1, rfl⟩ : ∃ n1, n = n1 + 1 := ⟨n - 1, by omega⟩
    exact ⟨h.1, fun s1 hs1 => ih n1 (c + 1) s1 (h.2 s1 hs1) (by omega)⟩

theorem movesAhead_init (x y : Int) (p0 : Int × Int) (hx : 0 ≤ x ∧ x < 8)
    (hy : 0 ≤ y ∧ y < 8) : MovesAhead (horizon x y) 2 (initState x y p0) := by
  have h1 : MovesAhead (horizon x y) 2 (initState x y (x, y)) := by
    obtain ⟨i, rfl⟩ : ∃ i : Nat, x = i := ⟨x.toNat, by omega⟩
    obtain ⟨j, rfl⟩ : ∃ j : Nat, y = j := ⟨y.toNat, by omega⟩
    exact sim_movesAhead _ 2 (by decide) (sim_init _ _ hx hy)
      (checkP_starts i (by omega) j (by omega))
  cases hh : horizon x y with
  | zero => trivial
  | succ n =>
    rw [hh] at h1
    refine ⟨initState_hasMove x y p0 hx hy, ?_⟩
    intro s1 hs1
    have := runFrom_init_indep x y p0 1 2 hx hy (by decide)
    simp only [runFrom, Option.bind_eq_bind] at this
    refine h1.2 s1 ?_
    rw [hs1] at this
    simpa using this.symm

/-! ### Counting the visited cells -/

theorem cells_inBoard : ∀ q ∈ cells, inBoard q.1 q.2 = true := by decide
theorem cells_complete : ∀ a < 8, ∀ b < 8, (((a : Nat) : Int), ((b : Nat) : Int)) ∈ cells := by
  decide
theorem mem_cells (i j : Int) : (i, j) ∈ cells ↔ inBoard i j = true := by
  constructor
  · intro h; exact cells_inBoard (i, j) h
  · intro h
    obtain ⟨h1, h2, h3, h4⟩ := (inBoard_iff i j).1 h
    obtain ⟨a, rfl⟩ : ∃ a : Nat, i = a := ⟨i.toNat, by omega⟩
    obtain ⟨b, rfl⟩ : ∃ b : Nat, j = b := ⟨j.toNat, by omega⟩
    exact cells_complete a (by omega) b (by omega)
theorem cells_nodup : cells.Nodup := by decide
theorem length_filter_update (l : List (Int × Int)) (f g : Int × Int → Bool) (q : Int × Int)
    (hl : l.Nodup) (hq : f q = false) (hg : g q = true) (hfg : ∀ r, r ≠ q → g r = f r) :
    (l.filter g).length = (l.filter f).length + if q ∈ l then 1 else 0 := by
  induction l with
  | nil => simp
  | cons a l ih =>
    obtain ⟨ha, hl1⟩ := List.nodup_cons.1 hl
    by_cases haq : a = q
    · subst haq
      have hrest : l.filter g = l.filter f :=
        List.filter_congr fun r hr => hfg r (fun hh => ha (hh ▸ hr))
      simp [List.filter_cons, hq, hg, hrest]
    · have hqa : ¬ q = a := fun hh => haq hh.symm
      have hmem : (q ∈ a :: l) ↔ q ∈ l := by
        simp [List.mem_cons, hqa]
      rw [List.filter_cons, List.filter_cons, hfg a haq]
      by_cases hfa : f a = true
      · simp only [hfa, if_true, List.length_cons, ih hl1, hmem]; omega
      · have hfa1 : f a = false := by simpa using hfa
        simp only [hfa1, hmem]
        simpa using ih hl1

theorem countNonzero_setCell (board : Board) (x y c : Int) (hb : inBoard x y = true)
    (h0 : board x y = 0) (hc : c ≠ 0) :
    countNonzero (setCell board x y c) = countNonzero board + 1 := by
  unfold countNonzero
  rw [length_filter_update cells (fun q => board q.1 q.2 != 0)
    (fun q => setCell board x y c q.1 q.2 != 0) (x, y) cells_nodup (by simp [h0])
    (by simp [setCell, hc])]
  · simp [(mem_cells x y).2 hb]
  · rintro ⟨i, j⟩ hne
    have : ¬ (i = x ∧ j = y) := fun hh => hne (Prod.ext hh.1 hh.2)
    simp [setCell, this]

theorem countNonzero_of_maskOK {board : Board} {m : Nat} (h : MaskOK board m) :
    countNonzero board = (cells.filter fun q => bitAt m (idx q.1 q.2) != 0).length := by
  unfold countNonzero
  congr 1
  apply List.filter_congr
  rintro ⟨i, j⟩ hq
  obtain ⟨h1, h2, h3, h4⟩ := (inBoard_iff i j).1 ((mem_cells i j).1 hq)
  have hb := h i j (by omega) (by omega) (by omega) (by omega)
  by_cases hz : board i j = 0
  · have : bitAt m (idx i j) = 0 := hb.2 ⟨h1, h2, h3, h4, hz⟩
    simp [hz, this]
  · have hne : bitAt m (idx i j) ≠ 0 := fun hh => hz (hb.1 hh).2.2.2.2
    have e1 : (board i j != 0) = true := by simpa using hz
    have e2 : (bitAt m (idx i j) != 0) = true := by simpa using hne
    show (board i j != 0) = (bitAt m (idx i j) != 0)
    rw [e1, e2]

/-! ### The invariant of an unobstructed run -/

theorem countNonzero_zero : countNonzero (fun _ _ => 0) = 0 := by
  unfold countNonzero
  simp

theorem tourInv_init (x y : Int) (p0 : Int × Int) (hb : inBoard x y = true) :
    TourInv x y 0 (initState x y p0) := by
  have hset : ∀ i j : Int, (initState x y p0).board i j = if i = x ∧ j = y then -1 else 0 :=
    fun _ _ => rfl
  refine ⟨hb, by simp [initState, setCell], ?_, ?_, ?_, ?_, ?_, ?_⟩
  · intro i j _
    rw [hset]
    by_cases h : i = x ∧ j = y <;> simp [h]
  · intro i j _
    rw [hset]
    by_cases h : i = x ∧ j = y <;> simp [h]
  · intro i j a b _ _ hne heq
    rw [hset] at hne heq
    rw [hset] at heq
    by_cases h1 : i = x ∧ j = y
    · by_cases h2 : a = x ∧ b = y
      · exact ⟨h1.1.trans h2.1.symm, h1.2.trans h2.2.symm⟩
      · simp [h1, h2] at heq
    · simp [h1] at hne
  · intro c h2 h1
    simp at h1
    omega
  · show countNonzero (setCell (fun _ _ => 0) x y (-1)) = 0 + 1
    rw [countNonzero_setCell _ x y (-1) hb rfl (by decide), countNonzero_zero]
  · intro i j a b _ _ h
    rw [hset, hset] at h
    by_cases h1 : i = x ∧ j = y <;> by_cases h2 : a = x ∧ b = y <;> simp [h1, h2] at h

theorem tourInv_step (x y : Int) (k : Nat) (s : State) (hxy : inBoard x y = true)
    (h : TourInv x y k s) (hm : HasMove s.board s.pos) :
    ∃ s1, iter ((k : Int) + 2) s = some s1 ∧ TourInv x y (k + 1) s1 := by
  obtain ⟨hpb, hplab, hneg, hrange, hinj, hocc, hcnt, hadj⟩ := h
  obtain ⟨hleg, hkn⟩ := nextmove_legal s.board s.pos s.p hm
  refine ⟨_, iter_of_hasMove _ s hm, ?_⟩
  generalize nextmove s.board s.pos s.p = q at hleg hkn
  have hqb : inBoard q.1 q.2 = true := hleg.inBoard
  have hq0 : s.board q.1 q.2 = 0 := hleg.2.2.2.2
  have hBq : ∀ i j : Int, (i = q.1 ∧ j = q.2) →
      setCell s.board q.1 q.2 ((k : Int) + 2) i j = (k : Int) + 2 := by
    intro i j hh; simp [setCell, hh]
  have hBn : ∀ i j : Int, ¬ (i = q.1 ∧ j = q.2) →
      setCell s.board q.1 q.2 ((k : Int) + 2) i j = s.board i j := by
    intro i j hh; simp [setCell, hh]
  have hposcell : ∀ i j : Int, inBoard i j = true →
      s.board i j = (if k = 0 then -1 else (k : Int) + 1) → (i, j) = s.pos := by
    intro i j hij hlab
    have hne : s.board i j ≠ 0 := by
      rw [hlab]; split <;> omega
    obtain ⟨e1, e2⟩ := hinj i j s.pos.1 s.pos.2 hij hpb hne (hlab.trans hplab.symm)
    exact Prod.ext e1 e2
  refine ⟨hqb, ?_, ?_, ?_, ?_, ?_, ?_, ?_⟩
  · show setCell s.board q.1 q.2 ((k : Int) + 2) q.1 q.2 = _
    rw [hBq _ _ ⟨rfl, rfl⟩, if_neg (by omega)]; push_cast; ring
  · intro i j hij
    show setCell s.board q.1 q.2 ((k : Int) + 2) i j = -1 ↔ _
    by_cases hq : i = q.1 ∧ j = q.2
    · rw [hBq i j hq]
      constructor
      · intro hh; omega
      · rintro ⟨rfl, rfl⟩
        have := (hneg i j hij).2 ⟨rfl, rfl⟩
        rw [hq.1, hq.2, hq0] at this
        omega
    · rw [hBn i j hq]; exact hneg i j hij
  · intro i j hij
    dsimp only
    by_cases hq : i = q.1 ∧ j = q.2
    · rw [hBq i j hq]; right; right; push_cast; omega
    · rw [hBn i j hq]
      rcases hrange i j hij with h0 | h1 | h2
      · exact Or.inl h0
      · exact Or.inr (Or.inl h1)
      · right; right; push_cast; omega
  · intro i j a b hij hab hne heq
    change setCell s.board q.1 q.2 ((k : Int) + 2) i j ≠ 0 at hne
    change setCell s.board q.1 q.2 ((k : Int) + 2) i j
      = setCell s.board q.1 q.2 ((k : Int) + 2) a b at heq
    by_cases hq1 : i = q.1 ∧ j = q.2
    · by_cases hq2 : a = q.1 ∧ b = q.2
      · exact ⟨hq1.1.trans hq2.1.symm, hq1.2.trans hq2.2.symm⟩
      · rw [hBq i j hq1, hBn a b hq2] at heq
        rcases hrange a b hab with h0 | h1 | h2 <;> omega
    · by_cases hq2 : a = q.1 ∧ b = q.2
      · rw [hBn i j hq1, hBq a b hq2] at heq
        rcases hrange i j hij with h0 | h1 | h2 <;> omega
      · rw [hBn i j hq1] at hne
        rw [hBn i j hq1, hBn a b hq2] at heq
        exact hinj i j a b hij hab hne heq
  · intro c hc2 hck
    by_cases hc : c = (k : Int) + 2
    · exact ⟨q.1, q.2, hqb, by rw [hc]; exact hBq _ _ ⟨rfl, rfl⟩⟩
    · obtain ⟨i, j, hij, hlab⟩ := hocc c hc2 (by push_cast at hck; omega)
      refine ⟨i, j, hij, ?_⟩
      have hq : ¬ (i = q.1 ∧ j = q.2) := by
        rintro ⟨rfl, rfl⟩
        rw [hq0] at hlab; omega
      show setCell s.board q.1 q.2 ((k : Int) + 2) i j = c
      rw [hBn i j hq, hlab]
  · show countNonzero (setCell s.board q.1 q.2 ((k : Int) + 2)) = k + 1 + 1
    rw [countNonzero_setCell _ _ _ _ hqb hq0 (by omega), hcnt]
  · intro i j a b hij hab hh
    change (setCell s.board q.1 q.2 ((k : Int) + 2) i j = -1
        ∧ setCell s.board q.1 q.2 ((k : Int) + 2) a b = 2)
      ∨ (2 ≤ setCell s.board q.1 q.2 ((k : Int) + 2) i j
        ∧ setCell s.board q.1 q.2 ((k : Int) + 2) a b
          = setCell s.board q.1 q.2 ((k : Int) + 2) i j + 1) at hh
    by_cases hq2 : a = q.1 ∧ b = q.2
    · have hab_eq : (a, b) = q := Prod.ext hq2.1 hq2.2
      rw [hBq a b hq2] at hh
      have hq1 : ¬ (i = q.1 ∧ j = q.2) := by
        intro hq1
        rw [hBq i j hq1] at hh
        omega
      rw [hBn i j hq1] at hh
      have hlab : s.board i j = (if k = 0 then -1 else (k : Int) + 1) := by
        rcases hh with ⟨h1, h2⟩ | ⟨h1, h2⟩
        · have hk0 : k = 0 := by omega
          rw [if_pos hk0]; exact h1
        · have hk0 : k ≠ 0 := by omega
          rw [if_neg hk0]; omega
      rw [hposcell i j hij hlab, hab_eq]
      exact hkn
    · rw [hBn a b hq2] at hh
      by_cases hq1 : i = q.1 ∧ j = q.2
      · rw [hBq i j hq1] at hh
        rcases hrange a b hab with h0 | h1 | h2 <;> omega
      · rw [hBn i j hq1] at hh
        exact hadj i j a b hij hab hh

theorem movesAhead_run (j r : Nat) (c : Int) (s s1 : State) (h : MovesAhead (j + r) c s)
    (hrun : runFrom c j s = some s1) : MovesAhead r (c + j) s1 := by
  induction j generalizing c s with
  | zero =>
    simp only [runFrom] at hrun
    cases hrun
    simpa using h
  | succ j ih =>
    have h1 : MovesAhead (j + r + 1) c s := by
      have e : j + 1 + r = j + r + 1 := by omega
      rw [e] at h; exact h
    simp only [runFrom] at hrun
    cases hit : iter c s with
    | none => rw [hit] at hrun; simp at hrun
    | some s2 =>
      rw [hit] at hrun
      have := ih (c + 1) s2 (h1.2 s2 hit) (by simpa using hrun)
      have e : c + 1 + (j : Int) = c + ((j + 1 : Nat) : Int) := by push_cast; ring
      rw [← e]; exact this

/-- A run that meets no dead end keeps the invariant. -/
theorem tourInv_run (x y : Int) (n k : Nat) (s : State) (hxy : inBoard x y = true)
    (h : TourInv x y k s) (hm : MovesAhead n ((k : Int) + 2) s) :
    ∃ s1, runFrom ((k : Int) + 2) n s = some s1 ∧ TourInv x y (k + n) s1 := by
  induction n generalizing k s with
  | zero => exact ⟨s, rfl, h⟩
  | succ n ih =>
    obtain ⟨s1, hit, hinv⟩ := tourInv_step x y k s hxy h hm.1
    have hm1 : MovesAhead n (((k + 1 : Nat) : Int) + 2) s1 := by
      have e : ((k + 1 : Nat) : Int) + 2 = (k : Int) + 2 + 1 := by push_cast; ring
      rw [e]; exact hm.2 s1 hit
    obtain ⟨s2, hrun, hinv2⟩ := ih (k + 1) s1 hinv hm1
    refine ⟨s2, ?_, ?_⟩
    · have e : ((k + 1 : Nat) : Int) + 2 = (k : Int) + 2 + 1 := by push_cast; ring
      rw [e] at hrun
      simp [runFrom, hit, hrun]
    · have e : k + (n + 1) = k + 1 + n := by omega
      rw [e]; exact hinv2

/-- After `k` iterations, `k` at most the horizon of the start square, the run is defined and
the invariant holds; below the horizon a further move is legal. -/
theorem tourInv_start (x y : Int) (p0 : Int × Int) (k : Nat) (hx : 0 ≤ x ∧ x < 8)
    (hy : 0 ≤ y ∧ y < 8) (hk : k ≤ horizon x y) :
    ∃ s, runFrom 2 k (initState x y p0) = some s ∧ TourInv x y k s ∧
      (k < horizon x y → HasMove s.board s.pos) := by
  have hxy : inBoard x y = true := (inBoard_iff x y).2 ⟨hx.1, hx.2, hy.1, hy.2⟩
  have hall := movesAhead_init x y p0 hx hy
  have hm := movesAhead_mono _ k 2 _ hall hk
  obtain ⟨s, hrun, hinv⟩ := tourInv_run x y k 0 (initState x y p0) hxy
    (tourInv_init x y p0 hxy) (by simpa using hm)
  have hrun2 : runFrom 2 k (initState x y p0) = some s := by simpa using hrun
  refine ⟨s, hrun2, by simpa using hinv, ?_⟩
  intro hlt
  obtain ⟨r, hr⟩ : ∃ r, horizon x y = k + (r + 1) := ⟨horizon x y - k - 1, by omega⟩
  rw [hr] at hall
  exact (movesAhead_run k (r + 1) 2 _ s hall hrun2).1

theorem nonzero_of_countNonzero (board : Board) (h : countNonzero board = 64) (i j : Int)
    (hij : inBoard i j = true) : board i j ≠ 0 := by
  unfold countNonzero at h
  have hlen : cells.length = 64 := by decide
  rw [← hlen, List.filter_length_eq_length] at h
  simpa using h (i, j) ((mem_cells i j).2 hij)

theorem completeTour_of_tourInv (x y : Int) (s : State) (hxy : inBoard x y = true)
    (h : TourInv x y 63 s) : CompleteTour x y s.board := by
  obtain ⟨_, _, hneg, hrange, hinj, hocc, hcnt, hadj⟩ := h
  refine ⟨nonzero_of_countNonzero s.board hcnt, hneg, ?_, ?_, ?_⟩
  · intro c h2 h64
    obtain ⟨i, j, hij, hlab⟩ := hocc c h2 (by push_cast; omega)
    refine ⟨i, j, hij, hlab, ?_⟩
    intro a b hab hlab2
    exact hinj a b i j hab hij (by omega) (hlab2.trans hlab.symm)
  · intro a b hab hlab
    exact hadj x y a b hxy hab (Or.inl ⟨(hneg x y hxy).2 ⟨rfl, rfl⟩, hlab⟩)
  · intro c h2 _ i j a b hij hab hl1 hl2
    exact hadj i j a b hij hab (Or.inr ⟨by omega, by omega⟩)

/-! ### The complete tours and the two dead ends -/

/-- The state after `n` iterations from the start square `(x, y)`, described by the evaluator,
whatever `p` holds at first. -/
theorem run_described (x y : Int) (p0 : Int × Int) (n : Nat) (hx : 0 ≤ x ∧ x < 8)
    (hy : 0 ≤ y ∧ y < 8) (hn : 0 < n) :
    ∃ s, runFrom 2 n (initState x y p0) = some s ∧
      MaskOK s.board (stateP n (maskOf x y) (idx x y)).1 := by
  obtain ⟨s, hrun, hsim⟩ := sim_run n 2 (by decide) (sim_init x y hx hy)
  exact ⟨s, by rw [runFrom_init_indep x y p0 n 2 hx hy hn]; exact hrun, hsim.1⟩

set_option maxRecDepth 100000 in
theorem stateP_2_7_bit : bitAt (stateP 63 (maskOf 2 7) (idx 2 7)).1 (idx 0 7) = 0 := by
  decide!

set_option maxRecDepth 100000 in
theorem stateP_2_7_count :
    (cells.filter fun q => bitAt (stateP 62 (maskOf 2 7) (idx 2 7)).1 (idx q.1 q.2) != 0).length
      = 62 := by
  decide!

set_option maxRecDepth 100000 in
theorem stateP_4_6_bit : bitAt (stateP 63 (maskOf 4 6) (idx 4 6)).1 (idx 4 4) = 0 := by
  decide!

set_option maxRecDepth 100000 in
theorem stateP_4_6_count :
    (cells.filter fun q => bitAt (stateP 60 (maskOf 4 6) (idx 4 6)).1 (idx q.1 q.2) != 0).length
      = 60 := by
  decide!

/-- C1 fails as stated: from the start square `(2, 7)` the loop of `main` ends with the cell
`(0, 7)` still unvisited (label 0), and from the start square `(4, 6)` with the cell `(4, 4)`
still unvisited, so neither final board is a complete tour. -/
theorem tour_incomplete_from_2_7 :
    (∃ s, mainLoop (initState 2 7 (0, 0)) = some s ∧ s.board 0 7 = 0 ∧
      ¬ CompleteTour 2 7 s.board) ∧
    (∃ s, mainLoop (initState 4 6 (0, 0)) = some s ∧ s.board 4 4 = 0 ∧
      ¬ CompleteTour 4 6 s.board) := by
  constructor
  · obtain ⟨s, hrun, hmask⟩ := run_described 2 7 (0, 0) 63 (by decide) (by decide) (by decide)
    have hleg : Legal s.board 0 7 :=
      (hmask 0 7 (by decide) (by decide) (by decide) (by decide)).1 stateP_2_7_bit
    exact ⟨s, hrun, hleg.2.2.2.2, fun hc => hc.1 0 7 (by decide) hleg.2.2.2.2⟩
  · obtain ⟨s, hrun, hmask⟩ := run_described 4 6 (0, 0) 63 (by decide) (by decide) (by decide)
    have hleg : Legal s.board 4 4 :=
      (hmask 4 4 (by decide) (by decide) (by decide) (by decide)).1 stateP_4_6_bit
    exact ⟨s, hrun, hleg.2.2.2.2, fun hc => hc.1 4 4 (by decide) hleg.2.2.2.2⟩

/-- C1, amended: for every start square `(x, y)` on the board other than `(2, 7)` and `(4, 6)`,
whatever `p` holds at first, the loop of `main` ends with a complete knight's tour: no cell is
0, the start cell is the one cell labelled -1, each label `2..64` is on exactly one cell, the
cell labelled 2 is one knight move from the start cell, and for every `c` in `2..63` the cell
labelled `c + 1` is one knight move from the cell labelled `c`. -/
theorem tour_complete (x y : Int) (p0 : Int × Int) (hx : 0 ≤ x ∧ x < 8) (hy : 0 ≤ y ∧ y < 8)
    (h1 : ¬ (x = 2 ∧ y = 7)) (h2 : ¬ (x = 4 ∧ y = 6)) :
    ∃ s, mainLoop (initState x y p0) = some s ∧ CompleteTour x y s.board := by
  have hh : horizon x y = 63 := by simp [horizon, h1, h2]
  obtain ⟨s, hrun, hinv, _⟩ := tourInv_start x y p0 63 hx hy (by omega)
  exact ⟨s, hrun, completeTour_of_tourInv x y s
    ((inBoard_iff x y).2 ⟨hx.1, hx.2, hy.1, hy.2⟩) hinv⟩

theorem tour_complete_witness :
    (0 ≤ (0 : Int) ∧ (0 : Int) < 8) ∧ (0 ≤ (0 : Int) ∧ (0 : Int) < 8) ∧
    ¬ ((0 : Int) = 2 ∧ (0 : Int) = 7) ∧ ¬ ((0 : Int) = 4 ∧ (0 : Int) = 6) ∧
    ∃ s, mainLoop (initState 0 0 (0, 0)) = some s ∧ CompleteTour 0 0 s.board :=
  ⟨by decide, by decide, by decide, by decide,
    tour_complete 0 0 (0, 0) (by decide) (by decide) (by decide) (by decide)⟩

/-- C6 fails as stated: from the start square `(2, 7)`, after 62 iterations the board has 62
nonzero cells, not 63: iteration 62 found no legal move and wrote its label over the label of
the current cell.  Likewise from `(4, 6)` after 60 iterations the board has 60 nonzero cells,
not 61. -/
theorem revisit_from_2_7 :
    (∃ s, runFrom 2 62 (initState 2 7 (0, 0)) = some s ∧ countNonzero s.board = 62 ∧
      countNonzero s.board ≠ 62 + 1) ∧
    (∃ s, runFrom 2 60 (initState 4 6 (0, 0)) = some s ∧ countNonzero s.board = 60 ∧
      countNonzero s.board ≠ 60 + 1) := by
  constructor
  · obtain ⟨s, hrun, hmask⟩ := run_described 2 7 (0, 0) 62 (by decide) (by decide) (by decide)
    have hcnt : countNonzero s.board = 62 := by
      rw [countNonzero_of_maskOK hmask]; exact stateP_2_7_count
    exact ⟨s, hrun, hcnt, by rw [hcnt]; decide⟩
  · obtain ⟨s, hrun, hmask⟩ := run_described 4 6 (0, 0) 60 (by decide) (by decide) (by decide)
    have hcnt : countNonzero s.board = 60 := by
      rw [countNonzero_of_maskOK hmask]; exact stateP_4_6_count
    exact ⟨s, hrun, hcnt, by rw [hcnt]; decide⟩

/-- C6, amended: for every start square `(x, y)` on the board, whatever `p` holds at first, and
every `k` up to the horizon of the start square (63, except 61 from `(2, 7)` and 59 from
`(4, 6)`), after `k` iterations the board has exactly `k + 1` nonzero cells, the start cell is
the one cell labelled -1, every label `2..k+1` is on exactly one cell, the board carries no
other nonzero label and no label on two cells; and below the horizon the next iteration
writes its label to a cell on the board that held 0. -/
theorem run_no_revisit (x y : Int) (p0 : Int × Int) (k : Nat) (hx : 0 ≤ x ∧ x < 8)
    (hy : 0 ≤ y ∧ y < 8) (hk : k ≤ horizon x y) :
    ∃ s, runFrom 2 k (initState x y p0) = some s ∧
      countNonzero s.board = k + 1 ∧
      (∀ i j : Int, inBoard i j = true → (s.board i j = -1 ↔ (i = x ∧ j = y))) ∧
      (∀ c : Int, 2 ≤ c → c ≤ (k : Int) + 1 → ∃ i j : Int, inBoard i j = true ∧
        s.board i j = c ∧ ∀ a b : Int, inBoard a b = true → s.board a b = c → a = i ∧ b = j) ∧
      (∀ i j : Int, inBoard i j = true →
        s.board i j = 0 ∨ s.board i j = -1 ∨ (2 ≤ s.board i j ∧ s.board i j ≤ (k : Int) + 1)) ∧
      (∀ i j a b : Int, inBoard i j = true → inBoard a b = true → s.board i j ≠ 0 →
        s.board i j = s.board a b → i = a ∧ j = b) ∧
      (k < horizon x y → ∃ s1, iter ((k : Int) + 2) s = some s1 ∧
        inBoard s1.pos.1 s1.pos.2 = true ∧ s.board s1.pos.1 s1.pos.2 = 0) := by
  obtain ⟨s, hrun, hinv, hmove⟩ := tourInv_start x y p0 k hx hy hk
  obtain ⟨_, _, hneg, hrange, hinj, hocc, hcnt, _⟩ := hinv
  refine ⟨s, hrun, hcnt, hneg, ?_, hrange, hinj, ?_⟩
  · intro c h2 hck
    obtain ⟨i, j, hij, hlab⟩ := hocc c h2 hck
    refine ⟨i, j, hij, hlab, ?_⟩
    intro a b hab hlab2
    exact hinj a b i j hab hij (by omega) (hlab2.trans hlab.symm)
  · intro hlt
    have hleg := (nextmove_legal s.board s.pos s.p (hmove hlt)).1
    exact ⟨_, iter_of_hasMove _ s (hmove hlt), hleg.inBoard, hleg.2.2.2.2⟩

theorem run_no_revisit_witness :
    (0 ≤ (2 : Int) ∧ (2 : Int) < 8) ∧ (0 ≤ (7 : Int) ∧ (7 : Int) < 8) ∧ 61 ≤ horizon 2 7 ∧
    ∃ s, runFrom 2 61 (initState 2 7 (0, 0)) = some s ∧
      countNonzero s.board = 61 + 1 ∧
      (∀ i j : Int, inBoard i j = true → (s.board i j = -1 ↔ (i = 2 ∧ j = 7))) ∧
      (∀ c : Int, 2 ≤ c → c ≤ ((61 : Nat) : Int) + 1 → ∃ i j : Int, inBoard i j = true ∧
        s.board i j = c ∧ ∀ a b : Int, inBoard a b = true → s.board a b = c → a = i ∧ b = j) ∧
      (∀ i j : Int, inBoard i j = true →
        s.board i j = 0 ∨ s.board i j = -1 ∨
          (2 ≤ s.board i j ∧ s.board i j ≤ ((61 : Nat) : Int) + 1)) ∧
      (∀ i j a b : Int, inBoard i j = true → inBoard a b = true → s.board i j ≠ 0 →
        s.board i j = s.board a b → i = a ∧ j = b) ∧
      (61 < horizon 2 7 → ∃ s1, iter (((61 : Nat) : Int) + 2) s = some s1 ∧
        inBoard s1.pos.1 s1.pos.2 = true ∧ s.board s1.pos.1 s1.pos.2 = 0) :=
  ⟨by decide, by decide, by decide,
    run_no_revisit 2 7 (0, 0) 61 (by decide) (by decide) (by decide)⟩

/-! ### Determinism of `nextmove`, the first call, dead ends -/

/-- C11 fails as stated: on the dead-end board `cornerBoard` with the position `(0, 0)`, two
calls of `nextmove` with the same board and position leave different cells in `p` when `p`
held different contents: each call leaves `p` as it found it. -/
theorem nextmove_depends_on_p :
    ¬ HasMove cornerBoard (0, 0) ∧
      nextmove cornerBoard (0, 0) (0, 0) = (0, 0) ∧ nextmove cornerBoard (0, 0) (5, 5) = (5, 5) ∧
      nextmove cornerBoard (0, 0) (0, 0) ≠ nextmove cornerBoard (0, 0) (5, 5) := by
  have h : ¬ HasMove cornerBoard (0, 0) := cornerState_stuck
  refine ⟨h, nextmove_of_not_hasMove _ _ _ h, nextmove_of_not_hasMove _ _ _ h, ?_⟩
  rw [nextmove_of_not_hasMove _ _ _ h, nextmove_of_not_hasMove _ _ _ h]
  decide

/-- C11, amended: for every board and position from which at least one knight move is legal,
two calls of `nextmove` leave the same cell in `p` whatever `p` held before each call. -/
theorem nextmove_determined (board : Board) (pos p q : Int × Int) (h : HasMove board pos) :
    nextmove board pos p = nextmove board pos q :=
  nextmove_indep board pos p q h

theorem nextmove_determined_witness :
    HasMove (fun _ _ => 0) (0, 0) ∧
      nextmove (fun _ _ => 0) (0, 0) (3, 4) = nextmove (fun _ _ => 0) (0, 0) (6, 1) :=
  ⟨⟨(2, 1), by simp [moves], by simp [Legal]⟩,
    nextmove_determined (fun _ _ => 0) (0, 0) (3, 4) (6, 1)
      ⟨(2, 1), by simp [moves], by simp [Legal]⟩⟩

/-- C13: for every start square on the board, on the initial board (only `board[x][y] = -1`
is nonzero) with the position at the start square, at least one of the 8 knight offsets lands
on a legal cell; so the first call of `nextmove` takes the assigning branch, and the cell it
leaves in `p` is a legal cell that does not depend on the contents `p0` of the uninitialised
`p`. -/
theorem first_call_assigns_p (x y : Int) (p0 : Int × Int) (hx : 0 ≤ x ∧ x < 8)
    (hy : 0 ≤ y ∧ y < 8) :
    HasMove (initState x y p0).board (initState x y p0).pos ∧
      Adopts (initState x y p0).board (initState x y p0).pos p0 ∧
      Legal (initState x y p0).board
        (nextmove (initState x y p0).board (initState x y p0).pos p0).1
        (nextmove (initState x y p0).board (initState x y p0).pos p0).2 ∧
      ∀ q0 : Int × Int,
        nextmove (initState x y p0).board (initState x y p0).pos q0
          = nextmove (initState x y p0).board (initState x y p0).pos p0 := by
  have h := initState_hasMove x y p0 hx hy
  exact ⟨h, (adopts_iff _ _ _).2 h, (nextmove_legal _ _ _ h).1,
    fun q0 => nextmove_indep _ _ q0 p0 h⟩

theorem first_call_assigns_p_witness :
    (0 ≤ (7 : Int) ∧ (7 : Int) < 8) ∧ (0 ≤ (0 : Int) ∧ (0 : Int) < 8) ∧
    HasMove (initState 7 0 (-5, 99)).board (initState 7 0 (-5, 99)).pos ∧
      Adopts (initState 7 0 (-5, 99)).board (initState 7 0 (-5, 99)).pos (-5, 99) ∧
      Legal (initState 7 0 (-5, 99)).board
        (nextmove (initState 7 0 (-5, 99)).board (initState 7 0 (-5, 99)).pos (-5, 99)).1
        (nextmove (initState 7 0 (-5, 99)).board (initState 7 0 (-5, 99)).pos (-5, 99)).2 ∧
      ∀ q0 : Int × Int,
        nextmove (initState 7 0 (-5, 99)).board (initState 7 0 (-5, 99)).pos q0
          = nextmove (initState 7 0 (-5, 99)).board (initState 7 0 (-5, 99)).pos (-5, 99) :=
  ⟨by decide, by decide, first_call_assigns_p 7 0 (-5, 99) (by decide) (by decide)⟩

/-- C14: for every board and position on it from which no knight move is legal, when `p`
equals the position, the iteration for the label `c` stores `c` in the current cell, leaves
every other cell and the position unchanged, and the loop goes on with the next label: the
following `n` iterations all run (each again on a dead end), so that a loop of `n + 1`
iterations from the dead end performs them all and ends with the label `c + n` of its last
iteration in the current cell.  From every start square the loop of `main` performs all its
63 iterations: it ends with the label 64 of the last one in the current cell. -/
theorem dead_end_overwrites_current_cell (c : Int) (n : Nat) (s : State) (hc : 0 < c)
    (h : ¬ HasMove s.board s.pos) (hp : s.p = s.pos) (hb : inBoard s.pos.1 s.pos.2 = true) :
    (∃ s1, iter c s = some s1 ∧ s1.pos = s.pos ∧ s1.p = s.pos ∧
      s1.board s.pos.1 s.pos.2 = c ∧
      (∀ i j : Int, (i, j) ≠ s.pos → s1.board i j = s.board i j) ∧
      ¬ HasMove s1.board s1.pos ∧
      runFrom c (n + 1) s = runFrom (c + 1) n s1) ∧
    (∃ s2, runFrom c (n + 1) s = some s2 ∧ s2.pos = s.pos ∧
      s2.board s.pos.1 s.pos.2 = c + n ∧
      ∀ i j : Int, (i, j) ≠ s.pos → s2.board i j = s.board i j) ∧
    (∀ (x y : Int) (p0 : Int × Int), 0 ≤ x ∧ x < 8 → 0 ≤ y ∧ y < 8 →
      ∃ s3, mainLoop (initState x y p0) = some s3 ∧ s3.board s3.pos.1 s3.pos.2 = 64) := by
  refine ⟨?_, ?_, ?_⟩
  · refine ⟨_, iter_of_not_hasMove c s h hp hb, rfl, rfl, by simp [setCell], ?_,
      not_hasMove_setCell _ _ (ne_of_gt hc) h, ?_⟩
    · intro i j hij
      have : ¬ (i = s.pos.1 ∧ j = s.pos.2) := fun hh => hij (Prod.ext hh.1 hh.2)
      simp [setCell, this]
    · simp [runFrom, iter_of_not_hasMove c s h hp hb]
  · obtain ⟨s2, hrun, hpos, _, _, hlab, hframe⟩ := runFrom_stuck (n + 1) c s hc h hp hb
    refine ⟨s2, hrun, hpos, ?_, hframe⟩
    rw [hlab (by omega)]; push_cast; ring
  · intro x y p0 hx hy
    obtain ⟨s3, hrun, _, hlab⟩ := runFrom_pos 63 2 (initState x y p0)
      ((inBoard_iff _ _).2 ⟨hx.1, hx.2, hy.1, hy.2⟩) (Or.inr (initState_hasMove x y p0 hx hy))
    exact ⟨s3, hrun, by rw [hlab (by decide)]; rfl⟩

theorem dead_end_overwrites_current_cell_witness :
    (0 : Int) < 8 ∧ ¬ HasMove cornerState.board cornerState.pos ∧
    cornerState.p = cornerState.pos ∧ inBoard cornerState.pos.1 cornerState.pos.2 = true ∧
    ((∃ s1, iter 8 cornerState = some s1 ∧ s1.pos = cornerState.pos ∧ s1.p = cornerState.pos ∧
      s1.board cornerState.pos.1 cornerState.pos.2 = 8 ∧
      (∀ i j : Int, (i, j) ≠ cornerState.pos → s1.board i j = cornerState.board i j) ∧
      ¬ HasMove s1.board s1.pos ∧
      runFrom 8 (56 + 1) cornerState = runFrom (8 + 1) 56 s1) ∧
    (∃ s2, runFrom 8 (56 + 1) cornerState = some s2 ∧ s2.pos = cornerState.pos ∧
      s2.board cornerState.pos.1 cornerState.pos.2 = 8 + ((56 : Nat) : Int) ∧
      ∀ i j : Int, (i, j) ≠ cornerState.pos → s2.board i j = cornerState.board i j) ∧
    (∀ (x y : Int) (p0 : Int × Int), 0 ≤ x ∧ x < 8 → 0 ≤ y ∧ y < 8 →
      ∃ s3, mainLoop (initState x y p0) = some s3 ∧ s3.board s3.pos.1 s3.pos.2 = 64)) :=
  ⟨by decide, cornerState_stuck, rfl, by decide,
    dead_end_overwrites_current_cell 8 56 cornerState (by decide) cornerState_stuck rfl
      (by decide)⟩

/-! ### `show` -/

theorem run_described_pos (x y : Int) (p0 : Int × Int) (n : Nat) (a b : Int)
    (hx : 0 ≤ x ∧ x < 8) (hy : 0 ≤ y ∧ y < 8) (hn : 0 < n)
    (ha : 0 ≤ a ∧ a < 8) (hb : 0 ≤ b ∧ b < 8)
    (hpos : (stateP n (maskOf x y) (idx x y)).2 = idx a b) :
    ∃ s, runFrom 2 n (initState x y p0) = some s ∧ s.pos = (a, b) ∧
      s.board a b = 2 + (n : Int) - 1 := by
  obtain ⟨s, hrun, hsim⟩ := sim_run n 2 (by decide) (sim_init x y hx hy)
  obtain ⟨_, hin, _, hi⟩ := hsim
  obtain ⟨h1, h2, h3, h4⟩ := (inBoard_iff _ _).1 hin
  rw [hpos] at hi
  obtain ⟨e1, e2⟩ := idx_inj a b s.pos.1 s.pos.2 ⟨by omega, by omega⟩ ⟨by omega, by omega⟩
    ⟨by omega, by omega⟩ ⟨by omega, by omega⟩ hi
  obtain ⟨s1, hrun1, _, hlab⟩ := runFrom_pos n 2 (initState x y (x, y))
    ((inBoard_iff _ _).2 ⟨hx.1, hx.2, hy.1, hy.2⟩) (Or.inl rfl)
  rw [hrun] at hrun1
  cases hrun1
  refine ⟨s, by rw [runFrom_init_indep x y p0 n 2 hx hy hn]; exact hrun,
    (Prod.ext e1 e2).symm, ?_⟩
  rw [e1, e2]; exact hlab hn

set_option maxRecDepth 100000 in
theorem stateP_0_0_pos : (stateP 63 (maskOf 0 0) (idx 0 0)).2 = idx 4 5 := by
  decide!

/-- C12 fails as stated: on the final board of the run from the start square `(0, 0)` the last
cell visited is `(4, 5)`, with the label 64, and `show` renders it with the number 64, not with
the end marker. -/
theorem last_cell_shown_as_number :
    ∃ s, mainLoop (initState 0 0 (0, 0)) = some s ∧ s.pos = (4, 5) ∧ s.board 4 5 = 64 ∧
      showCell s.board 4 5 = CellOut.number 64 ∧ showCell s.board 4 5 ≠ CellOut.endMark := by
  obtain ⟨s, hrun, hpos, hlab⟩ := run_described_pos 0 0 (0, 0) 63 4 5 (by decide) (by decide)
    (by decide) (by decide) (by decide) stateP_0_0_pos
  have h64 : s.board 4 5 = 64 := by rw [hlab]; rfl
  have hshow : showCell s.board 4 5 = CellOut.number 64 := by
    unfold showCell; rw [h64]; decide
  exact ⟨s, hrun, hpos, h64, hshow, by rw [hshow]; decide⟩

theorem showCell_cases (board : Board) (x y : Int) :
    (board x y = -1 → showCell board x y = CellOut.startMark) ∧
      (board x y = 0 → showCell board x y = CellOut.dot) ∧
      (board x y ≠ -1 → board x y ≠ 0 → x = 7 ∧ y = 7 →
        showCell board x y = CellOut.endMark) ∧
      (board x y ≠ -1 → board x y ≠ 0 → ¬ (x = 7 ∧ y = 7) →
        showCell board x y = CellOut.number (board x y)) := by
  unfold showCell
  refine ⟨?_, ?_, ?_, ?_⟩
  · intro h; simp [h]
  · intro h; simp [h]
  · rintro h1 h2 ⟨rfl, rfl⟩; simp [h1, h2]
  · intro h1 h2 h3
    have : ¬ (x = y ∧ x = 7) := fun hh => h3 ⟨hh.2, hh.1 ▸ hh.2⟩
    simp [h1, h2, this]

/-- C12, amended: for every board, and so for every board produced by the loop of `main`,
`show` renders each cell by its label and its coordinates: a cell labelled -1 (the start
cell) with the start marker, a cell labelled 0 (unvisited) with the placeholder, the cell
`(7, 7)` with the end marker when its label is neither -1 nor 0, and every other cell with a
nonzero label, the last cell visited included, with its label as a number. -/
theorem show_renders_by_label (board : Board) (x y : Int) :
    (board x y = -1 → showCell board x y = CellOut.startMark) ∧
      (board x y = 0 → showCell board x y = CellOut.dot) ∧
      (board x y ≠ -1 → board x y ≠ 0 → x = 7 ∧ y = 7 →
        showCell board x y = CellOut.endMark) ∧
      (board x y ≠ -1 → board x y ≠ 0 → ¬ (x = 7 ∧ y = 7) →
        showCell board x y = CellOut.number (board x y)) ∧
      (∀ i < 8, ∀ j < 8, ((showGrid board).getD i []).getD j CellOut.dot
        = showCell board (i : Nat) (j : Nat)) :=
  ⟨(showCell_cases board x y).1, (showCell_cases board x y).2.1,
    (showCell_cases board x y).2.2.1, (showCell_cases board x y).2.2.2, by
      intro i hi j hj
      simp [showGrid, List.getD, hi, hj]⟩

/-- C15: for every board, `show` prints the end marker for a cell if and only if that cell is
`(7, 7)` and `board[7][7]` is neither 0 nor -1, whatever label it carries; a cell labelled 64
at any other coordinates is printed as the number 64 (the text `  64`), not with the end
marker; and when `(7, 7)` is the start cell or unvisited no cell gets the end marker. -/
theorem end_marker_only_at_7_7 (board : Board) (x y : Int) :
    (showCell board x y = CellOut.endMark ↔
        (x = 7 ∧ y = 7 ∧ board 7 7 ≠ 0 ∧ board 7 7 ≠ -1)) ∧
      (board x y = 64 → ¬ (x = 7 ∧ y = 7) →
        showCell board x y = CellOut.number 64 ∧ showCell board x y ≠ CellOut.endMark ∧
        cellText (showCell board x y) = "  64") ∧
      (board 7 7 = -1 ∨ board 7 7 = 0 → ∀ i j : Int, showCell board i j ≠ CellOut.endMark) := by
  have hiff : ∀ i j : Int, showCell board i j = CellOut.endMark ↔
      (i = 7 ∧ j = 7 ∧ board 7 7 ≠ 0 ∧ board 7 7 ≠ -1) := by
    intro i j
    obtain ⟨c1, c2, c3, c4⟩ := showCell_cases board i j
    constructor
    · intro h
      by_cases h1 : board i j = -1
      · rw [c1 h1] at h; exact absurd h (by decide)
      · by_cases h2 : board i j = 0
        · rw [c2 h2] at h; exact absurd h (by decide)
        · by_cases h3 : i = 7 ∧ j = 7
          · obtain ⟨rfl, rfl⟩ := h3
            exact ⟨rfl, rfl, h2, h1⟩
          · rw [c4 h1 h2 h3] at h; exact absurd h (by simp)
    · rintro ⟨rfl, rfl, h2, h1⟩
      exact c3 h1 h2 ⟨rfl, rfl⟩
  refine ⟨hiff x y, ?_, ?_⟩
  · intro h64 hne
    have hnum : showCell board x y = CellOut.number 64 := by
      have := (showCell_cases board x y).2.2.2 (by rw [h64]; decide) (by rw [h64]; decide) hne
      rw [this, h64]
    exact ⟨hnum, by rw [hnum]; simp, by rw [hnum]; decide⟩
  · intro h i j hh
    obtain ⟨_, _, h0, h1⟩ := (hiff i j).1 hh
    rcases h with h | h
    · exact h1 h
    · exact h0 h

/-! ### The start square -/

theorem rand8_range (randMax r : Int) (hm : 32767 ≤ randMax ∧ randMax ≤ 2147483647)
    (hr : 0 ≤ r ∧ r ≤ randMax) :
    RAND randMax r 8 = r / (randMax / 8 + 1) ∧ 0 ≤ RAND randMax r 8 ∧ RAND randMax r 8 ≤ 7 := by
  have hdiv : Int.tdiv randMax 8 = randMax / 8 :=
    Int.tdiv_eq_ediv (by omega) (by decide)
  have hpos : 0 < randMax / 8 + 1 := by omega
  have hR : RAND randMax r 8 = r / (randMax / 8 + 1) := by
    unfold RAND
    rw [hdiv, Int.tdiv_eq_ediv hr.1 (le_of_lt hpos)]
  have h0 : 0 ≤ r / (randMax / 8 + 1) := Int.ediv_nonneg hr.1 (le_of_lt hpos)
  have h7 : r / (randMax / 8 + 1) < 8 :=
    Int.ediv_lt_of_lt_mul hpos (by omega)
  rw [hR]
  exact ⟨rfl, h0, by omega⟩

/-- C16: for every `RAND_MAX` with `32767 ≤ RAND_MAX ≤ 2^31 - 1` and every value `r` of
`rand()` with `0 ≤ r ≤ RAND_MAX`, every intermediate value of `RAND(8)` fits a 32-bit `int`
(`RAND_MAX / 8`, `RAND_MAX / 8 + 1` and the quotient), the divisor is positive, and
`RAND(8) = r / (RAND_MAX / 8 + 1)` lies in `0..7`; hence the start square made of two such
values is on the board. -/
theorem rand8_on_board (randMax r : Int) (hm : 32767 ≤ randMax ∧ randMax ≤ 2147483647)
    (hr : 0 ≤ r ∧ r ≤ randMax) :
    fitsInt32 (Int.tdiv randMax 8) ∧ fitsInt32 (Int.tdiv randMax 8 + 1) ∧
      0 < Int.tdiv randMax 8 + 1 ∧ fitsInt32 (RAND randMax r 8) ∧
      0 ≤ RAND randMax r 8 ∧ RAND randMax r 8 ≤ 7 ∧
      ∀ r2 : Int, 0 ≤ r2 ∧ r2 ≤ randMax →
        inBoard (RAND randMax r 8) (RAND randMax r2 8) = true := by
  have hdiv : Int.tdiv randMax 8 = randMax / 8 :=
    Int.tdiv_eq_ediv (by omega) (by decide)
  obtain ⟨_, h0, h7⟩ := rand8_range randMax r hm hr
  rw [hdiv]
  unfold fitsInt32
  refine ⟨⟨by omega, by omega⟩, ⟨by omega, by omega⟩, by omega, ⟨by omega, by omega⟩, h0, h7,
    ?_⟩
  intro r2 hr2
  obtain ⟨_, h02, h72⟩ := rand8_range randMax r2 hm hr2
  exact (inBoard_iff _ _).2 ⟨h0, by omega, h02, by omega⟩

theorem rand8_on_board_witness :
    (32767 ≤ (32767 : Int) ∧ (32767 : Int) ≤ 2147483647) ∧
    (0 ≤ (32767 : Int) ∧ (32767 : Int) ≤ 32767) ∧
    fitsInt32 (Int.tdiv 32767 8) ∧ fitsInt32 (Int.tdiv 32767 8 + 1) ∧
      0 < Int.tdiv 32767 8 + 1 ∧ fitsInt32 (RAND 32767 32767 8) ∧
      0 ≤ RAND 32767 32767 8 ∧ RAND 32767 32767 8 ≤ 7 ∧
      ∀ r2 : Int, 0 ≤ r2 ∧ r2 ≤ 32767 →
        inBoard (RAND 32767 32767 8) (RAND 32767 r2 8) = true :=
  ⟨by decide, by decide, rand8_on_board 32767 32767 (by decide) (by decide)⟩

end Kts
